import Mathlib

/-!
# Verification of the aggregation engine of `aggregate.py`

Shallow embedding of the topology-resolution and aggregation engine
(`src/aggregate.py` of the Revit → Pipe-Flo workflow).  Coordinates are
exact rationals; Python dicts are insertion-ordered association lists
(assignment overwrites in place, new keys append at the end); Python sets
are insertion-ordered duplicate-free lists.  Segment lengths are real
numbers (the one place the code takes a square root).
-/

namespace Aggregate

set_option allowUnsafeReducibility true in
attribute [semireducible] Rat.add Rat.sub Rat.mul Rat.div Rat.inv Rat.neg

/-- One row of the Dynamo CSV export, with the fields `aggregate.py` reads.
`ConnectedFittingNames` is `none` when the cell is missing (`NaN`), mirroring
the `isinstance(item, str)` guards of the source. -/
structure Row where
  StartX_m : ℚ
  StartY_m : ℚ
  StartZ_m : ℚ
  EndX_m : ℚ
  EndY_m : ℚ
  EndZ_m : ℚ
  SegmentName : String
  Diameter_mm : ℚ
  ConnectedFittingNames : Option String
deriving DecidableEq

/-- Python dict assignment `m[k] = v`: overwrite the entry in place when the
key exists, append a new entry otherwise (dicts preserve insertion order). -/
def dset {κ β : Type} [DecidableEq κ] : List (κ × β) → κ → β → List (κ × β)
  | [], k, v => [(k, v)]
  | (k₁, v₁) :: t, k, v => if k = k₁ then (k, v) :: t else (k₁, v₁) :: dset t k v

/-- Python dict lookup `m[k]` as an option. -/
def dfind {κ β : Type} [DecidableEq κ] : List (κ × β) → κ → Option β
  | [], _ => none
  | (k₁, v₁) :: t, k => if k = k₁ then some v₁ else dfind t k

/-- Python dict read with a default.  A `defaultdict` read inserts the
default on a missing key; that insertion never changes any later read, so
reads are modelled purely. -/
def dget {κ β : Type} [DecidableEq κ] (m : List (κ × β)) (k : κ) (d : β) : β :=
  (dfind m k).getD d

/-- Python `set.add` on an insertion-ordered set. -/
def sadd {α : Type} [DecidableEq α] (s : List α) (a : α) : List α :=
  if a ∈ s then s else s ++ [a]

/-- Python 3 `round` to an integer on an exact rational: round half to even. -/
def pyRound (q : ℚ) : ℤ :=
  if q - (⌊q⌋ : ℚ) < 1 / 2 then ⌊q⌋
  else if 1 / 2 < q - (⌊q⌋ : ℚ) then ⌊q⌋ + 1
  else if Even ⌊q⌋ then ⌊q⌋ else ⌊q⌋ + 1

/-- `_snap_point` (lines 88-90): snap each coordinate of a 3-D point to the
tolerance grid, `round(pt[i]/tol)*tol`. -/
def snap_point (p : ℚ × ℚ × ℚ) (tol : ℚ) : ℚ × ℚ × ℚ :=
  ((pyRound (p.1 / tol) : ℚ) * tol, (pyRound (p.2.1 / tol) : ℚ) * tol,
    (pyRound (p.2.2 / tol) : ℚ) * tol)

/-- Python `str.split(sep)` for a one-character separator, over the
character list of the string (keeps empty pieces, like Python). -/
def splitOnChar (sep : Char) (s : String) : List String :=
  (s.data.splitOn sep).map (fun cs => String.mk cs)

/-- Python `str.strip()`: drop the whitespace at both ends. -/
def pyStrip (s : String) : String :=
  String.mk (((s.data.dropWhile Char.isWhitespace).reverse.dropWhile
    Char.isWhitespace).reverse)

/-- Python `sep.join(items)`. -/
def joinSep (sep : String) : List String → String
  | [] => ""
  | [x] => x
  | x :: y :: t => x ++ sep ++ joinSep sep (y :: t)

/-- Python string comparison on two character lists: lexicographic by code
point. -/
def charListLe : List Char → List Char → Bool
  | [], _ => true
  | _ :: _, [] => false
  | a :: as, b :: bs => if a = b then charListLe as bs else a.toNat < b.toNat

/-- Python string comparison `x <= y` (code-point lexicographic), the order
`sorted` uses on strings. -/
def strle (x y : String) : Prop := charListLe x.data y.data = true

instance : DecidableRel strle := fun x y =>
  inferInstanceAs (Decidable (charListLe x.data y.data = true))

/-- The descriptor tokens `aggregate_fittings` keeps from one cell of the
series (lines 77-81): split on `;`, drop tokens that are empty *before*
stripping, then strip each survivor.  A missing cell contributes nothing. -/
def cellFittings : Option String → List String
  | none => []
  | some s => ((splitOnChar ';' s).filter (fun t => t ≠ "")).map pyStrip

/-- The name part of a fitting descriptor: the text before the first
opening bracket (`unique_fitting.split('[')[0]`, line 84). -/
def namePart (s : String) : String := (splitOnChar '[' s).headD ""

/-- All descriptors of the series, in series order. -/
def allFittings (series : List (Option String)) : List String :=
  series.foldr (fun c acc => cellFittings c ++ acc) []

/-- `sorted(list(unique_fittings_with_id))` (line 83): the distinct
descriptors in ascending (code-point lexicographic) order. -/
def sortedDescriptors (series : List (Option String)) : List String :=
  ((allFittings series).dedup).insertionSort strle

/-- `aggregate_fittings` (lines 71-86): the names of the sorted distinct
descriptors, joined by a semicolon and a space. -/
def aggregate_fittings (series : List (Option String)) : String :=
  joinSep "; " ((sortedDescriptors series).map namePart)

/-- Highest frequency among the values of `l`. -/
def maxCount {α : Type} [DecidableEq α] (l : List α) : ℕ :=
  (l.map (fun a => l.count a)).foldr max 0

/-- Model of `pandas.Series.mode()`: the distinct values of maximal
frequency, ascending in the order `r` of the column's dtype. -/
def modeList {α : Type} [DecidableEq α] (r : α → α → Prop) [DecidableRel r]
    (l : List α) : List α :=
  (l.dedup.filter (fun a => l.count a = maxCount l)).insertionSort r

/-- The spec/size aggregation lambda of `aggregated_data` (lines 160-161):
`x.mode().iloc[0] if not x.mode().empty else np.nan`. -/
def modeHead {α : Type} [DecidableEq α] (r : α → α → Prop) [DecidableRel r]
    (l : List α) : Option α :=
  (modeList r l).head?

/-- A node of the per-run topology graph: a snapped 3-D point, or a fitting
descriptor string (the full `Name[id]` token). -/
inductive Node : Type
  | pt : ℚ × ℚ × ℚ → Node
  | fit : String → Node
deriving DecidableEq

instance : Inhabited Node := ⟨Node.fit ""⟩

/-- The per-run graph: the adjacency dict (`adj = defaultdict(set)`) and the
node elevation dict (`node_z`). -/
structure RunGraph where
  adj : List (Node × List Node)
  node_z : List (Node × ℚ)
deriving DecidableEq

/-- `adj[v]` as the BFS reads it (empty for an absent key). -/
def adjOf (g : RunGraph) (v : Node) : List Node := dget g.adj v []

/-- `node_z[v]` (0 for an absent key; the code only looks up present keys). -/
def zOf (g : RunGraph) (v : Node) : ℚ := dget g.node_z v 0

/-- `adj[u].add(v)` on the adjacency dict. -/
def adjAdd (m : List (Node × List Node)) (u v : Node) : List (Node × List Node) :=
  dset m u (sadd (dget m u []) v)

/-- The fitting tokens the graph builder keeps from one cell (lines
113-117): strip each piece of the split, keep the non-empty ones.  (The
guard `isinstance(fittings, str) and fittings.strip()` is redundant: a
missing or whitespace-only cell yields no tokens either way.) -/
def graphFittings : Option String → List String
  | none => []
  | some s => ((splitOnChar ';' s).map pyStrip).filter (fun t => t ≠ "")

/-- Lines 118-121 of `aggregate.py` for one fitting token `f` of a row
with snapped endpoints `p₁`, `p₂`: four set-inserts into the adjacency
dict, and the elevation write `node_z[f] = (p1[2] + p2[2]) / 2`. -/
def addFit (p₁ p₂ : Node) (zavg : ℚ) (h : RunGraph) (f : String) : RunGraph :=
  { adj := adjAdd (adjAdd (adjAdd (adjAdd h.adj p₁ (Node.fit f))
      (Node.fit f) p₁) p₂ (Node.fit f)) (Node.fit f) p₂,
    node_z := dset h.node_z (Node.fit f) zavg }

/-- Lines 104-121 of `aggregate.py`: one iteration of the row loop of
`find_run_end_elevations`, registering the two snapped endpoints, the edge
between them, and the fitting nodes of the row. -/
def addRow (tol : ℚ) (g : RunGraph) (row : Row) : RunGraph :=
  let q₁ := snap_point (row.StartX_m, row.StartY_m, row.StartZ_m) tol
  let q₂ := snap_point (row.EndX_m, row.EndY_m, row.EndZ_m) tol
  let p₁ := Node.pt q₁
  let p₂ := Node.pt q₂
  let nz := dset (dset g.node_z p₁ q₁.2.2) p₂ q₂.2.2
  let ad := adjAdd (adjAdd g.adj p₁ p₂) p₂ p₁
  (graphFittings row.ConnectedFittingNames).foldl
    (addFit p₁ p₂ ((q₁.2.2 + q₂.2.2) / 2)) { adj := ad, node_z := nz }

/-- Lines 101-121: the graph built from all rows of a run, in row order. -/
def buildGraph (tol : ℚ) (group : List Row) : RunGraph :=
  group.foldl (addRow tol) ⟨[], []⟩

/-- The state of the `farthest_pair` BFS: the `seen` dict (node → hop
count), the queue, and the current farthest node. -/
structure BfsState where
  seen : List (Node × ℕ)
  q : List Node
  far : Node
deriving DecidableEq

/-- The body of the inner loop `for v in adj[u]` (lines 135-140), with `du`
the hop count of the popped node `u`. -/
def bfsVisit (du : ℕ) (st : BfsState) (v : Node) : BfsState :=
  match dfind st.seen v with
  | some _ => st
  | none =>
    let seen := dset st.seen v (du + 1)
    let q := st.q ++ [v]
    let far := if dget seen st.far 0 < du + 1 then v else st.far
    ⟨seen, q, far⟩

/-- The `while q` loop (lines 133-140).  `fuel` only forces termination;
`farthest_pair` passes enough fuel for the queue to drain (`bfsLoop_drains`
below), so the embedding computes exactly what the unbounded loop does. -/
def bfsLoop (g : RunGraph) : ℕ → BfsState → BfsState
  | 0, st => st
  | fuel + 1, st =>
    match st.q with
    | [] => st
    | u :: rest =>
      bfsLoop g fuel
        ((adjOf g u).foldl (bfsVisit (dget st.seen u 0)) ⟨st.seen, rest, st.far⟩)

/-- An upper bound on the number of iterations the BFS loop can make:
one more than the queue can ever receive. -/
def bfsFuel (g : RunGraph) : ℕ :=
  g.adj.foldr (fun kv n => kv.2.length + n) 0 + 1

/-- `farthest_pair` (lines 129-141): breadth-first search from `start`,
returning the farthest node found and the `seen` dict. -/
def farthest_pair (g : RunGraph) (start : Node) : Node × List (Node × ℕ) :=
  let st := bfsLoop g (bfsFuel g) ⟨[(start, 0)], [start], start⟩
  (st.far, st.seen)

/-- Lines 126-127: the degree-1 nodes (`endpoints`), in dict order; the
degree of a node is the size of its neighbour set. -/
def endpointsOf (g : RunGraph) : List Node :=
  (g.adj.filter (fun kv => kv.2.length = 1)).map (fun kv => kv.1)

/-- Python `min` over a non-empty list (0 on `[]`, which the code never
reaches: `min` is only applied to `node_z.values()` of a non-empty graph). -/
def pyMin (l : List ℚ) : ℚ := match l with | [] => 0 | h :: t => t.foldl min h

/-- Python `max` over a non-empty list (0 on `[]`, unreachable as above). -/
def pyMax (l : List ℚ) : ℚ := match l with | [] => 0 | h :: t => t.foldl max h

/-- `find_run_end_elevations` (lines 92-151).  The tolerance is passed
first; the source default is `tol = 0.001`. -/
def find_run_end_elevations (tol : ℚ) (group : List Row) : ℚ × ℚ :=
  match group with
  | [row] => (row.StartZ_m, row.EndZ_m)
  | _ =>
    let g := buildGraph tol group
    if g.adj = [] then (0, 0)
    else
      match endpointsOf g with
      | e₀ :: _ :: _ =>
        let a := (farthest_pair g e₀).1
        let b := (farthest_pair g a).1
        let za := zOf g a
        let zb := zOf g b
        if za ≤ zb then (za, zb) else (zb, za)
      | _ =>
        let zs := g.node_z.map (fun kv => kv.2)
        (pyMin zs, pyMax zs)

/-- Whether a segment is degenerate: its start and end points coincide. -/
def degenerate (r : Row) : Prop :=
  r.StartX_m = r.EndX_m ∧ r.StartY_m = r.EndY_m ∧ r.StartZ_m = r.EndZ_m

instance (r : Row) : Decidable (degenerate r) := by
  unfold degenerate; infer_instance

/-- `calculate_length` (lines 63-69): the 3-D Euclidean length of a
segment. -/
noncomputable def calculate_length (r : Row) : ℝ :=
  Real.sqrt (((r.EndX_m - r.StartX_m) ^ 2 + (r.EndY_m - r.StartY_m) ^ 2 +
    (r.EndZ_m - r.StartZ_m) ^ 2 : ℚ) : ℝ)

/-- The per-run aggregate record of `aggregated_data` (lines 158-163). -/
structure RunAgg where
  TotalLength : ℝ
  Spec : Option String
  Size : Option ℚ
  Fittings : String

/-- Lines 154-163: the aggregation of one run's rows.  `TotalLength` sums
the per-row `CalculatedLength_m` column; `Spec` and `Size` take the first
entry of the pandas mode; `Fittings` applies `aggregate_fittings`. -/
noncomputable def aggregated_data (group : List Row) : RunAgg :=
  { TotalLength := (group.map calculate_length).sum,
    Spec := modeHead strle (group.map Row.SegmentName),
    Size := modeHead (fun a b : ℚ => a ≤ b) (group.map Row.Diameter_mm),
    Fittings := aggregate_fittings (group.map Row.ConnectedFittingNames) }

/-! ### Untyped rows (claim C9)

`aggregate.py` performs no row-level validation: `df.apply(calculate_length,
axis=1)` (line 154) runs the arithmetic of `calculate_length` on whatever
`read_csv` produced.  A malformed numeric field survives parsing as a
string, and `str - float` raises a `TypeError` that nothing catches.  The
model below mirrors the dynamic typing of that pipeline stage. -/

/-- A pandas cell as `aggregate.py` sees it after `read_csv`: a float, the
float NaN (a missing field), or a string left by a malformed numeric
field. -/
inductive PVal : Type
  | num : ℚ → PVal
  | nan : PVal
  | str : String → PVal
deriving DecidableEq

/-- Whether a cell holds a string (a malformed numeric field). -/
def PVal.isStr : PVal → Bool
  | PVal.str _ => true
  | _ => false

/-- Python subtraction on two cells: numbers subtract, NaN propagates, a
string raises `TypeError`. -/
def psub : PVal → PVal → Except String PVal
  | PVal.num a, PVal.num b => Except.ok (PVal.num (a - b))
  | PVal.str _, _ => Except.error "TypeError: unsupported operand type(s) for -"
  | _, PVal.str _ => Except.error "TypeError: unsupported operand type(s) for -"
  | _, _ => Except.ok PVal.nan

/-- Python multiplication on two cells (used for the squares); its operands
here are never strings, but the model is total anyway. -/
def pmul : PVal → PVal → Except String PVal
  | PVal.num a, PVal.num b => Except.ok (PVal.num (a * b))
  | PVal.str _, _ => Except.error "TypeError: unsupported operand type(s) for *"
  | _, PVal.str _ => Except.error "TypeError: unsupported operand type(s) for *"
  | _, _ => Except.ok PVal.nan

/-- Python addition on two cells. -/
def padd : PVal → PVal → Except String PVal
  | PVal.num a, PVal.num b => Except.ok (PVal.num (a + b))
  | PVal.str _, _ => Except.error "TypeError: unsupported operand type(s) for +"
  | _, PVal.str _ => Except.error "TypeError: unsupported operand type(s) for +"
  | _, _ => Except.ok PVal.nan

/-- The result of `np.sqrt` on a well-typed sum of squares: a real number,
or NaN.  (A string operand is impossible there: the arithmetic before the
square root has already raised.) -/
inductive RVal : Type
  | num : ℝ → RVal
  | nan : RVal

/-- `np.sqrt` on the sum-of-squares cell. -/
noncomputable def pvSqrt : PVal → RVal
  | PVal.num q => RVal.num (Real.sqrt (q : ℝ))
  | _ => RVal.nan

/-- A raw CSV row whose numeric fields may be malformed (a string) or
missing (NaN). -/
structure DynRow where
  StartX_m : PVal
  StartY_m : PVal
  StartZ_m : PVal
  EndX_m : PVal
  EndY_m : PVal
  EndZ_m : PVal
deriving DecidableEq

/-- `calculate_length` on an untyped row, raising where Python raises: each
difference is formed, squared, summed, and passed to `np.sqrt`. -/
noncomputable def calculate_length_dyn (r : DynRow) : Except String RVal := do
  let dx ← psub r.EndX_m r.StartX_m
  let sx ← pmul dx dx
  let dy ← psub r.EndY_m r.StartY_m
  let sy ← pmul dy dy
  let dz ← psub r.EndZ_m r.StartZ_m
  let sz ← pmul dz dz
  let s ← padd (← padd sx sy) sz
  pure (pvSqrt s)

/-- Line 154, `df['CalculatedLength_m'] = df.apply(calculate_length,
axis=1)`: the first row that raises aborts the whole computation; nothing
after line 154 runs. -/
noncomputable def applyCalculatedLength (rows : List DynRow) :
    Except String (List RVal) :=
  rows.mapM calculate_length_dyn

/-- Whether a row has a malformed (string-valued) coordinate field. -/
def malformedRow (r : DynRow) : Bool :=
  r.StartX_m.isStr || r.StartY_m.isStr || r.StartZ_m.isStr ||
    r.EndX_m.isStr || r.EndY_m.isStr || r.EndZ_m.isStr

/-- The value `a` ties for the highest frequency in the column `l`. -/
def tiedTop {α : Type} [DecidableEq α] (l : List α) (a : α) : Prop :=
  a ∈ l ∧ l.count a = maxCount l

/-- The elevation a row writes for each of its fitting tokens: the average
of the z-values of its two snapped endpoints (line 121). -/
def rowFitZ (tol : ℚ) (r : Row) : ℚ :=
  ((snap_point (r.StartX_m, r.StartY_m, r.StartZ_m) tol).2.2 +
    (snap_point (r.EndX_m, r.EndY_m, r.EndZ_m) tol).2.2) / 2

/-- Modelled from the claim's words (C5), for comparison with the `node_z`
the code records: the mean of the z-values of *all* segment endpoints
directly connected to a fitting node in the built graph. -/
def specFittingAvg (g : RunGraph) (f : String) : ℚ :=
  let zs := (adjOf g (Node.fit f)).filterMap
    (fun n => match n with | Node.pt p => some p.2.2 | Node.fit _ => none)
  zs.sum / zs.length

/-- The vertices of the run graph: the keys of the adjacency dict. -/
def nodesOf (g : RunGraph) : List Node := g.adj.map (fun kv => kv.1)

/-- Every neighbour recorded anywhere in the adjacency dict. -/
def adjTargets (g : RunGraph) : List Node :=
  g.adj.foldr (fun kv acc => kv.2 ++ acc) []

/-- The undirected simple graph the adjacency dict spans: an edge joins two
distinct nodes when either records the other as a neighbour.  The claim's
"hop distance" is the distance in this graph. -/
def tsG (g : RunGraph) : SimpleGraph Node where
  Adj u v := u ≠ v ∧ (v ∈ adjOf g u ∨ u ∈ adjOf g v)
  symm := fun _ _ h => ⟨Ne.symm h.1, h.2.symm⟩
  loopless := fun _ h => h.1 rfl

instance (g : RunGraph) : DecidableRel (tsG g).Adj := fun u v =>
  decidable_of_iff (u ≠ v ∧ (v ∈ adjOf g u ∨ u ∈ adjOf g v)) Iff.rfl

/-- All hop distances between nodes of the run graph. -/
noncomputable def pairDists (g : RunGraph) : List ℕ :=
  (nodesOf g).foldr
    (fun u acc => ((nodesOf g).map (fun v => (tsG g).dist u v)) ++ acc) []

/-- The diameter of the run graph: the largest hop distance between any
two of its nodes. -/
noncomputable def graphDiam (g : RunGraph) : ℕ := (pairDists g).foldr max 0

/-- Line 144: the first sweep, a breadth-first search from the first
degree-1 endpoint. -/
def sweepA (g : RunGraph) : Node :=
  (farthest_pair g ((endpointsOf g).headD default)).1

/-- Line 145: the second sweep, a breadth-first search from the node the
first sweep returned. -/
def sweepB (g : RunGraph) : Node := (farthest_pair g (sweepA g)).1

/-- Whether BFS has recorded a hop count for `v`. -/
def seenM (st : BfsState) (v : Node) : Prop := dfind st.seen v ≠ none

instance (st : BfsState) (v : Node) : Decidable (seenM st v) :=
  inferInstanceAs (Decidable (dfind st.seen v ≠ none))

/-- The hop count BFS has recorded for `v` (0 when unseen). -/
def seenD (st : BfsState) (v : Node) : ℕ := dget st.seen v 0

/-- The number of reachable-but-unseen candidates plus the queue length:
every BFS iteration lowers it, so it bounds the iterations left. -/
def bfsMeasure (g : RunGraph) (st : BfsState) : ℕ :=
  st.q.length +
    ((adjTargets g).dedup.filter (fun w => (dfind st.seen w).isNone)).length

/-- The state of the per-run BFS invariant (claim C1): hop counts are exact
upper bounds that the final closure argument turns into distances, the
queue is sorted with spread at most one, finished nodes have all their
neighbours recorded, and `far` maximises the recorded hop counts. -/
structure BfsInv (g : RunGraph) (s : Node) (st : BfsState) : Prop where
  start_mem : seenM st s
  start_zero : seenD st s = 0
  dist_le : ∀ v, seenM st v → (tsG g).Reachable s v ∧ (tsG g).dist s v ≤ seenD st v
  q_seen : ∀ u ∈ st.q, seenM st u
  q_sorted : st.q.Pairwise (fun u v => seenD st u ≤ seenD st v)
  frontier : ∀ v, seenM st v → ∀ u ∈ st.q, seenD st v ≤ seenD st u + 1
  closed : ∀ v, seenM st v → v ∉ st.q → ∀ w ∈ adjOf g v,
    seenM st w ∧ seenD st w ≤ seenD st v + 1
  far_seen : seenM st st.far
  far_max : ∀ v, seenM st v → seenD st v ≤ seenD st st.far
  keys : ∀ v, seenM st v → v = s ∨ v ∈ nodesOf g

/-- The invariant while the neighbours of a popped node `u` (hop count
`du`) are being visited: `ns` is the not-yet-visited rest of `adj[u]`. -/
structure BfsMidInv (g : RunGraph) (s u : Node) (du : ℕ) (st : BfsState)
    (ns : List Node) : Prop where
  start_mem : seenM st s
  start_zero : seenD st s = 0
  dist_le : ∀ v, seenM st v → (tsG g).Reachable s v ∧ (tsG g).dist s v ≤ seenD st v
  q_seen : ∀ w ∈ st.q, seenM st w
  q_sorted : st.q.Pairwise (fun a b => seenD st a ≤ seenD st b)
  q_ge_du : ∀ w ∈ st.q, du ≤ seenD st w
  frontier : ∀ v, seenM st v → ∀ w ∈ st.q, seenD st v ≤ seenD st w + 1
  frontier_du : ∀ v, seenM st v → seenD st v ≤ du + 1
  closed : ∀ v, seenM st v → v ∉ st.q → v ≠ u → ∀ w ∈ adjOf g v,
    seenM st w ∧ seenD st w ≤ seenD st v + 1
  closure_u : ∀ w ∈ adjOf g u, w ∈ ns ∨ (seenM st w ∧ seenD st w ≤ du + 1)
  far_seen : seenM st st.far
  far_max : ∀ v, seenM st v → seenD st v ≤ seenD st st.far
  keys : ∀ v, seenM st v → v = s ∨ v ∈ nodesOf g
  u_seen : seenM st u
  u_val : seenD st u = du

/-!
## Theorems

The claims, in the order they are settled.
-/

/-- Claim C3: a run of exactly one segment resolves to that segment's raw
`(StartZ_m, EndZ_m)`, untouched by snapping and without any graph. -/
theorem C3_single_segment_exact (tol : ℚ) (row : Row) :
    find_run_end_elevations tol [row] = (row.StartZ_m, row.EndZ_m) := rfl

/-- Rounding an integer is the identity, for every tie-breaking branch. -/
theorem pyRound_intCast (n : ℤ) : pyRound (n : ℚ) = n := by
  simp only [pyRound, Int.floor_intCast, sub_self]
  norm_num

/-- Claim C8: snapping is idempotent — re-snapping a snapped point changes
nothing, for every point and every tolerance. -/
theorem C8_snap_idempotent (p : ℚ × ℚ × ℚ) (tol : ℚ) :
    snap_point (snap_point p tol) tol = snap_point p tol := by
  obtain ⟨x, y, z⟩ := p
  by_cases h : tol = 0
  · subst h
    simp [snap_point]
  · have key : ∀ c : ℚ, (pyRound ((pyRound (c / tol) : ℚ) * tol / tol) : ℚ) * tol
        = (pyRound (c / tol) : ℚ) * tol := by
      intro c
      rw [mul_div_cancel_right₀ _ h, pyRound_intCast]
    simp [snap_point, key]

/-- Claim C2 fails on a single-segment run whose start is higher than its
end: the resolver returns the raw, descending pair (here `(1, 0)`). -/
theorem C2_counterexample :
    ¬ ((find_run_end_elevations (1 / 1000)
          [⟨0, 0, 1, 0, 0, 0, "CS40", 50, none⟩]).1 ≤
        (find_run_end_elevations (1 / 1000)
          [⟨0, 0, 1, 0, 0, 0, "CS40", 50, none⟩]).2) := by
  decide

/-- A left fold of `min` only descends. -/
theorem foldl_min_le (h : ℚ) (t : List ℚ) : t.foldl min h ≤ h := by
  induction t generalizing h with
  | nil => exact le_refl h
  | cons a t ih => exact le_trans (ih (min h a)) (min_le_left h a)

/-- A left fold of `max` only ascends. -/
theorem le_foldl_max (h : ℚ) (t : List ℚ) : h ≤ t.foldl max h := by
  induction t generalizing h with
  | nil => exact le_refl h
  | cons a t ih => exact le_trans (le_max_left h a) (ih (max h a))

/-- The vertical-range fallback is ordered. -/
theorem pyMin_le_pyMax (l : List ℚ) : pyMin l ≤ pyMax l := by
  cases l with
  | nil => exact le_refl 0
  | cons h t => exact le_trans (foldl_min_le h t) (le_foldl_max h t)

/-- Claim C2, amended: for every run of at least two segments the resolved
pair is ascending.  (A single-segment run returns the raw pair, which the
counterexample shows can descend.) -/
theorem C2_multi_segment_ascending (tol : ℚ) (group : List Row)
    (h : 2 ≤ group.length) :
    (find_run_end_elevations tol group).1 ≤
      (find_run_end_elevations tol group).2 := by
  match group with
  | [] => simp at h
  | [r] => simp at h
  | r₁ :: r₂ :: rest =>
    show (find_run_end_elevations tol (r₁ :: r₂ :: rest)).1 ≤ _
    simp only [find_run_end_elevations]
    split
    · exact le_refl 0
    · split
      · split
        · next h' => exact h'
        · next h' => exact le_of_not_le h'
      · exact pyMin_le_pyMax _

/-- The amended C2 at a two-segment run. -/
theorem C2_multi_segment_ascending_witness :
    (find_run_end_elevations (1 / 1000)
        [⟨0, 0, 0, 5, 0, 0, "CS40", 50, none⟩,
         ⟨5, 0, 0, 5, 0, 3, "CS40", 50, none⟩]).1 ≤
      (find_run_end_elevations (1 / 1000)
        [⟨0, 0, 0, 5, 0, 0, "CS40", 50, none⟩,
         ⟨5, 0, 0, 5, 0, 3, "CS40", 50, none⟩]).2 :=
  C2_multi_segment_ascending (1 / 1000) _ (by decide)

/-- A dict write never leaves the dict empty. -/
theorem dset_ne_nil {κ β : Type} [DecidableEq κ] (m : List (κ × β)) (k : κ)
    (v : β) : dset m k v ≠ [] := by
  cases m with
  | nil => simp [dset]
  | cons kv t =>
    obtain ⟨k₁, v₁⟩ := kv
    simp only [dset]
    split <;> simp

/-- A set-insert into the adjacency dict never leaves it empty. -/
theorem adjAdd_ne_nil (m : List (Node × List Node)) (u v : Node) :
    adjAdd m u v ≠ [] := dset_ne_nil m u _

/-- One fitting step keeps the adjacency dict non-empty. -/
theorem addFit_adj_ne_nil (p₁ p₂ : Node) (z : ℚ) (h : RunGraph) (f : String) :
    (addFit p₁ p₂ z h f).adj ≠ [] := adjAdd_ne_nil _ _ _

/-- The fitting fold keeps the adjacency dict non-empty. -/
theorem foldl_addFit_adj_ne_nil (p₁ p₂ : Node) (z : ℚ) :
    ∀ (l : List String) (h : RunGraph), h.adj ≠ [] →
      (l.foldl (addFit p₁ p₂ z) h).adj ≠ [] := by
  intro l
  induction l with
  | nil => intro h hne; exact hne
  | cons f t ih => intro h _; exact ih _ (addFit_adj_ne_nil p₁ p₂ z h f)

/-- Processing any row leaves the adjacency dict non-empty: the row's own
edge registration guarantees at least one key. -/
theorem addRow_adj_ne_nil (tol : ℚ) (g : RunGraph) (r : Row) :
    (addRow tol g r).adj ≠ [] := by
  unfold addRow
  exact foldl_addFit_adj_ne_nil _ _ _ _ _ (adjAdd_ne_nil _ _ _)

/-- Rows only ever add to the adjacency dict. -/
theorem foldl_addRow_adj_ne_nil (tol : ℚ) :
    ∀ (l : List Row) (g : RunGraph), g.adj ≠ [] →
      ((l.foldl (addRow tol) g)).adj ≠ [] := by
  intro l
  induction l with
  | nil => intro g hne; exact hne
  | cons r t ih => intro g _; exact ih _ (addRow_adj_ne_nil tol g r)

/-- Claim C10: a run of at least two segments builds a non-empty adjacency
dict, so the empty-graph branch returning `(0.0, 0.0)` is unreachable. -/
theorem C10_adj_nonempty (tol : ℚ) (group : List Row)
    (h : 2 ≤ group.length) : (buildGraph tol group).adj ≠ [] := by
  match group with
  | [] => simp at h
  | r :: rest =>
    show ((r :: rest).foldl (addRow tol) ⟨[], []⟩).adj ≠ []
    rw [List.foldl_cons]
    exact foldl_addRow_adj_ne_nil tol rest _ (addRow_adj_ne_nil tol _ r)

/-- C10 at a concrete two-segment run. -/
theorem C10_adj_nonempty_witness :
    (buildGraph (1 / 1000)
        [⟨0, 0, 0, 5, 0, 0, "CS40", 50, none⟩,
         ⟨5, 0, 0, 5, 0, 3, "CS40", 50, none⟩]).adj ≠ [] :=
  C10_adj_nonempty (1 / 1000) _ (by decide)

/-- A degenerate segment has length zero. -/
theorem calculate_length_degenerate (r : Row) (h : degenerate r) :
    calculate_length r = 0 := by
  obtain ⟨h₁, h₂, h₃⟩ := h
  rw [calculate_length, h₁, h₂, h₃]
  norm_num

/-- Claim C6: the aggregated total length is exactly the sum of the
per-segment 3-D Euclidean lengths, and degenerate (zero-length) segments
contribute nothing: dropping them does not change the sum. -/
theorem C6_total_length_sum (group : List Row) :
    (aggregated_data group).TotalLength =
      (group.map (fun r => Real.sqrt (((r.EndX_m - r.StartX_m) ^ 2 +
        (r.EndY_m - r.StartY_m) ^ 2 + (r.EndZ_m - r.StartZ_m) ^ 2 : ℚ) : ℝ))).sum ∧
    (aggregated_data group).TotalLength =
      ((group.filter (fun r => decide (¬ degenerate r))).map calculate_length).sum := by
  constructor
  · rfl
  · show (group.map calculate_length).sum = _
    induction group with
    | nil => simp
    | cons r t ih =>
      by_cases h : degenerate r
      · simp [List.filter_cons, h, calculate_length_degenerate r h, ih]
      · simp [List.filter_cons, h, ih]

/-- Equal code points are equal characters. -/
theorem char_toNat_inj {a b : Char} (h : a.toNat = b.toNat) : a = b :=
  Char.eq_of_val_eq (UInt32.toNat.inj h)

/-- The code-point order on character lists is total. -/
theorem charListLe_total : ∀ as bs : List Char,
    charListLe as bs = true ∨ charListLe bs as = true
  | [], [] => Or.inl rfl
  | [], _ :: _ => Or.inl rfl
  | _ :: _, [] => Or.inr rfl
  | a :: as, b :: bs => by
    by_cases hab : a = b
    · subst hab
      simpa [charListLe] using charListLe_total as bs
    · have hne : a.toNat ≠ b.toNat := fun he => hab (char_toNat_inj he)
      rcases Nat.lt_or_ge a.toNat b.toNat with h | h
      · left
        simp [charListLe, hab, h]
      · have hlt : b.toNat < a.toNat :=
          lt_of_le_of_ne h (fun he => hne he.symm)
        right
        simp [charListLe, Ne.symm hab, hlt]

/-- The code-point order on character lists is transitive. -/
theorem charListLe_trans : ∀ as bs cs : List Char,
    charListLe as bs = true → charListLe bs cs = true →
      charListLe as cs = true
  | [], _, _ => fun _ _ => rfl
  | _ :: _, [], _ => by intro h _; simp [charListLe] at h
  | _ :: _, _ :: _, [] => by intro _ h; simp [charListLe] at h
  | a :: as, b :: bs, c :: cs => by
    intro h₁ h₂
    by_cases hab : a = b <;> by_cases hbc : b = c
    · subst hab; subst hbc
      simp only [charListLe, if_pos rfl] at h₁ h₂ ⊢
      exact charListLe_trans as bs cs h₁ h₂
    · subst hab
      simp only [charListLe, if_pos rfl] at h₁
      simp [charListLe, hbc] at h₂ ⊢
      simp [hbc, h₂]
    · subst hbc
      simp [charListLe, hab] at h₁ ⊢
      simp [hab, h₁]
    · simp [charListLe, hab] at h₁
      simp [charListLe, hbc] at h₂
      have hac : a.toNat < c.toNat := Nat.lt_trans h₁ h₂
      have hne : a ≠ c := fun he => Nat.lt_irrefl _ (he ▸ hac)
      simp [charListLe, hne, hac]

instance : IsTotal String strle := ⟨fun x y => charListLe_total x.data y.data⟩

instance : IsTrans String strle :=
  ⟨fun x y z => charListLe_trans x.data y.data z.data⟩

/-- Unfolding the descriptor collection one cell at a time. -/
theorem allFittings_cons (c : Option String) (t : List (Option String)) :
    allFittings (c :: t) = cellFittings c ++ allFittings t := rfl

/-- A descriptor is collected exactly when some cell of the series yields
it. -/
theorem mem_allFittings (d : String) : ∀ series : List (Option String),
    d ∈ allFittings series ↔ ∃ c ∈ series, d ∈ cellFittings c := by
  intro series
  induction series with
  | nil => simp [allFittings]
  | cons c t ih =>
    rw [allFittings_cons]
    simp only [List.mem_append, ih, List.mem_cons]
    constructor
    · rintro (h | ⟨x, hx, hd⟩)
      · exact ⟨c, Or.inl rfl, h⟩
      · exact ⟨x, Or.inr hx, hd⟩
    · rintro ⟨x, rfl | hx, hd⟩
      · exact Or.inl hd
      · exact Or.inr ⟨x, hx, hd⟩

/-- Claim C4 fails: two instances of the same fitting name (`Elbow[1]` and
`Elbow[2]`) in one run make the name appear twice in the output — the list
is not name-deduplicated. -/
theorem C4_counterexample :
    aggregate_fittings [some "Elbow[1];Elbow[2]"] = "Elbow; Elbow" ∧
    ¬ ((sortedDescriptors [some "Elbow[1];Elbow[2]"]).map namePart).Nodup :=
  ⟨by decide, by decide⟩

/-- Claim C4, amended: the fittings string is built from the distinct full
descriptor strings (`Name[id]`), sorted lexicographically as descriptors,
each contributing its name part once — so a descriptor referenced by
several segments appears exactly once, but the same *name* recurs when it
occurs under distinct instance ids, and the order is that of the full
descriptors, not of the names. -/
theorem C4_fittings_descriptor_agg (series : List (Option String)) :
    (sortedDescriptors series).Nodup ∧
    List.Sorted strle (sortedDescriptors series) ∧
    (∀ d, d ∈ sortedDescriptors series ↔ ∃ c ∈ series, d ∈ cellFittings c) ∧
    aggregate_fittings series =
      joinSep "; " ((sortedDescriptors series).map namePart) := by
  refine ⟨?_, List.sorted_insertionSort strle _, ?_, rfl⟩
  · exact (List.perm_insertionSort strle _).nodup_iff.mpr
      (List.nodup_dedup (allFittings series))
  · intro d
    rw [sortedDescriptors, (List.perm_insertionSort strle _).mem_iff,
      List.mem_dedup]
    exact mem_allFittings d series

/-- A member is bounded by the fold of `max` over its list. -/
theorem le_foldr_max_of_mem {x : ℕ} : ∀ {L : List ℕ}, x ∈ L →
    x ≤ L.foldr max 0 := by
  intro L h
  induction L with
  | nil => cases h
  | cons y t ih =>
    rcases List.mem_cons.mp h with rfl | h₁
    · exact le_max_left x (t.foldr max 0)
    · exact le_trans (ih h₁) (le_max_right y (t.foldr max 0))

/-- Every frequency is bounded by the highest frequency. -/
theorem count_le_maxCount {α : Type} [DecidableEq α] (l : List α) (a : α) :
    l.count a ≤ maxCount l := by
  by_cases h : a ∈ l
  · exact le_foldr_max_of_mem (List.mem_map_of_mem (fun a => l.count a) h)
  · simp [List.count_eq_zero_of_not_mem h]

/-- A fold of `max` over naturals is zero or is attained. -/
theorem foldr_max_attained : ∀ L : List ℕ,
    L.foldr max 0 = 0 ∨ L.foldr max 0 ∈ L := by
  intro L
  induction L with
  | nil => exact Or.inl rfl
  | cons y t ih =>
    rcases max_choice y (t.foldr max 0) with h | h
    · exact Or.inr (by rw [List.foldr_cons, h]; exact List.mem_cons_self y t)
    · rcases ih with h0 | hm
      · exact Or.inl (by rw [List.foldr_cons, h, h0])
      · exact Or.inr (by rw [List.foldr_cons, h]; exact List.mem_cons_of_mem y hm)

/-- On a non-empty column the highest frequency is attained. -/
theorem maxCount_attained {α : Type} [DecidableEq α] {l : List α}
    (h : l ≠ []) : ∃ a ∈ l, l.count a = maxCount l := by
  rcases foldr_max_attained (l.map (fun a => l.count a)) with h0 | hm
  · match l, h with
    | a :: t, _ =>
      have ha : (a :: t).count a ≤ 0 := by
        calc (a :: t).count a ≤ maxCount (a :: t) :=
              count_le_maxCount (a :: t) a
          _ = 0 := h0
      have : 0 < (a :: t).count a :=
        List.count_pos_iff.mpr (List.mem_cons_self a t)
      omega
  · obtain ⟨a, ha, hc⟩ := List.mem_map.mp hm
    exact ⟨a, ha, hc⟩

/-- The first element of the pandas mode: a most-frequent value, least in
the column order among all tied most-frequent values. -/
theorem modeHead_least {α : Type} [DecidableEq α] (r : α → α → Prop)
    [DecidableRel r] [IsTotal α r] [IsTrans α r] (l : List α) (h : l ≠ []) :
    ∃ m, modeHead r l = some m ∧ tiedTop l m ∧
      ∀ c, tiedTop l c → r m c := by
  obtain ⟨a, ha, hac⟩ := maxCount_attained h
  have haF : a ∈ l.dedup.filter (fun x => l.count x = maxCount l) :=
    List.mem_filter.mpr ⟨List.mem_dedup.mpr ha, by simp [hac]⟩
  rcases hS : (l.dedup.filter
      (fun x => l.count x = maxCount l)).insertionSort r with _ | ⟨m, rest⟩
  · have := (List.perm_insertionSort r
      (l.dedup.filter (fun x => l.count x = maxCount l))).mem_iff.mpr haF
    rw [hS] at this
    cases this
  · have hmem : ∀ c, tiedTop l c → c ∈ m :: rest := by
      intro c ⟨hcl, hcc⟩
      rw [← hS, (List.perm_insertionSort r _).mem_iff]
      exact List.mem_filter.mpr ⟨List.mem_dedup.mpr hcl, by simp [hcc]⟩
    have hsorted : List.Sorted r (m :: rest) := by
      rw [← hS]; exact List.sorted_insertionSort r _
    have hmF : m ∈ l.dedup.filter (fun x => l.count x = maxCount l) := by
      have : m ∈ m :: rest := List.mem_cons_self m rest
      rw [← hS, (List.perm_insertionSort r _).mem_iff] at this
      exact this
    obtain ⟨hml, hmc⟩ := List.mem_filter.mp hmF
    refine ⟨m, ?_, ⟨List.mem_dedup.mp hml, by simpa using hmc⟩, ?_⟩
    · rw [modeHead, modeList, hS]
      rfl
    · intro c hc
      rcases List.mem_cons.mp (hmem c hc) with rfl | hcr
      · exact (IsTotal.total (r := r) c c).elim id id
      · exact (List.sorted_cons.mp hsorted).1 c hcr

/-- Claim C7: when two or more specs (respectively sizes) tie for the
highest frequency among a run's segments, the aggregator selects the least
tied value in the column's ascending order — code-point order for the spec
strings, numeric order for the diameters. -/
theorem C7_mode_tie_lowest (group : List Row) :
    ((∃ a b, a ≠ b ∧ tiedTop (group.map Row.SegmentName) a ∧
        tiedTop (group.map Row.SegmentName) b) →
      ∃ m, (aggregated_data group).Spec = some m ∧
        tiedTop (group.map Row.SegmentName) m ∧
        ∀ c, tiedTop (group.map Row.SegmentName) c → strle m c) ∧
    ((∃ a b, a ≠ b ∧ tiedTop (group.map Row.Diameter_mm) a ∧
        tiedTop (group.map Row.Diameter_mm) b) →
      ∃ m, (aggregated_data group).Size = some m ∧
        tiedTop (group.map Row.Diameter_mm) m ∧
        ∀ c, tiedTop (group.map Row.Diameter_mm) c → m ≤ c) := by
  constructor
  · rintro ⟨a, b, hab, ⟨ha, hac⟩, hb⟩
    exact modeHead_least strle (group.map Row.SegmentName)
      (List.ne_nil_of_mem ha)
  · rintro ⟨a, b, hab, ⟨ha, hac⟩, hb⟩
    exact modeHead_least (fun a b : ℚ => a ≤ b) (group.map Row.Diameter_mm)
      (List.ne_nil_of_mem ha)

/-- C7 at a concrete run: specs tie between "A" and "B", sizes between 1
and 2; the lower value wins in both columns. -/
theorem C7_mode_tie_lowest_witness :
    (aggregated_data [⟨0, 0, 0, 1, 0, 0, "B", 2, none⟩,
      ⟨0, 0, 0, 1, 0, 0, "B", 2, none⟩, ⟨0, 0, 0, 1, 0, 0, "A", 1, none⟩,
      ⟨0, 0, 0, 1, 0, 0, "A", 1, none⟩,
      ⟨0, 0, 0, 1, 0, 0, "C", 3, none⟩]).Spec = some "A" ∧
    (aggregated_data [⟨0, 0, 0, 1, 0, 0, "B", 2, none⟩,
      ⟨0, 0, 0, 1, 0, 0, "B", 2, none⟩, ⟨0, 0, 0, 1, 0, 0, "A", 1, none⟩,
      ⟨0, 0, 0, 1, 0, 0, "A", 1, none⟩,
      ⟨0, 0, 0, 1, 0, 0, "C", 3, none⟩]).Size = some 1 :=
  ⟨by decide, by decide⟩

/-- A dict write is read back at its own key. -/
theorem dfind_dset_self {κ β : Type} [DecidableEq κ] (m : List (κ × β))
    (k : κ) (v : β) : dfind (dset m k v) k = some v := by
  induction m with
  | nil => simp [dset, dfind]
  | cons kv t ih =>
    obtain ⟨k₁, v₁⟩ := kv
    by_cases h : k = k₁
    · simp [dset, dfind, h]
    · simp [dset, dfind, h, ih]

/-- A dict write does not change reads at other keys. -/
theorem dfind_dset_ne {κ β : Type} [DecidableEq κ] (m : List (κ × β))
    {k k₁ : κ} (v : β) (h : k₁ ≠ k) :
    dfind (dset m k v) k₁ = dfind m k₁ := by
  induction m with
  | nil => simp [dset, dfind, h]
  | cons kv t ih =>
    obtain ⟨k₂, v₂⟩ := kv
    by_cases h₂ : k = k₂
    · subst h₂
      simp [dset, dfind, h]
    · by_cases h₃ : k₁ = k₂ <;> simp [dset, dfind, h₂, h₃, ih]

/-- One fitting step writes its own elevation. -/
theorem addFit_node_z_self (p₁ p₂ : Node) (z : ℚ) (h : RunGraph)
    (f : String) :
    dfind (addFit p₁ p₂ z h f).node_z (Node.fit f) = some z :=
  dfind_dset_self _ _ _

/-- One fitting step leaves other fittings' elevations alone. -/
theorem addFit_node_z_ne (p₁ p₂ : Node) (z : ℚ) (h : RunGraph)
    {f g : String} (hne : g ≠ f) :
    dfind (addFit p₁ p₂ z h f).node_z (Node.fit g) =
      dfind h.node_z (Node.fit g) :=
  dfind_dset_ne _ _ (by simp [hne])

/-- The fitting fold of one row: a token of the row reads back the row's
average, a token not in the row is untouched. -/
theorem foldl_addFit_node_z (p₁ p₂ : Node) (z : ℚ) (f : String) :
    ∀ (l : List String) (h : RunGraph),
      (f ∈ l → dfind (l.foldl (addFit p₁ p₂ z) h).node_z (Node.fit f) =
        some z) ∧
      (f ∉ l → dfind (l.foldl (addFit p₁ p₂ z) h).node_z (Node.fit f) =
        dfind h.node_z (Node.fit f)) := by
  intro l
  induction l with
  | nil => exact fun h => ⟨fun hf => absurd hf (List.not_mem_nil f), fun _ => rfl⟩
  | cons g t ih =>
    intro h
    constructor
    · intro hf
      by_cases hft : f ∈ t
      · exact (ih (addFit p₁ p₂ z h g)).1 hft
      · have hfg : f = g := by
          rcases List.mem_cons.mp hf with h₁ | h₁
          · exact h₁
          · exact absurd h₁ hft
        subst hfg
        rw [List.foldl_cons, (ih (addFit p₁ p₂ z h f)).2 hft]
        exact addFit_node_z_self p₁ p₂ z h f
    · intro hf
      have hfg : f ≠ g := fun he => hf (he ▸ List.mem_cons_self g t)
      have hft : f ∉ t := fun he => hf (List.mem_cons_of_mem g he)
      rw [List.foldl_cons, (ih (addFit p₁ p₂ z h g)).2 hft]
      exact addFit_node_z_ne p₁ p₂ z h hfg

/-- Processing a row: a fitting token of the row reads back the row's
endpoint average, a fitting not referenced by the row is untouched. -/
theorem addRow_node_z_fit (tol : ℚ) (g : RunGraph) (r : Row) (f : String) :
    (f ∈ graphFittings r.ConnectedFittingNames →
      dfind (addRow tol g r).node_z (Node.fit f) = some (rowFitZ tol r)) ∧
    (f ∉ graphFittings r.ConnectedFittingNames →
      dfind (addRow tol g r).node_z (Node.fit f) =
        dfind g.node_z (Node.fit f)) := by
  unfold addRow
  constructor
  · intro hf
    exact (foldl_addFit_node_z _ _ _ f _ _).1 hf
  · intro hf
    rw [(foldl_addFit_node_z _ _ _ f _ _).2 hf]
    show dfind (dset (dset g.node_z _ _) _ _) (Node.fit f) = _
    rw [dfind_dset_ne _ _ (by simp), dfind_dset_ne _ _ (by simp)]

/-- The row fold of the graph builder: the elevation stored for a fitting
is the endpoint average of the last row referencing it, and is inherited
when no row references it. -/
theorem foldl_addRow_node_z_fit (tol : ℚ) (f : String) :
    ∀ (group : List Row) (g : RunGraph),
      ((group.filter (fun r =>
          decide (f ∈ graphFittings r.ConnectedFittingNames))) = [] →
        dfind (group.foldl (addRow tol) g).node_z (Node.fit f) =
          dfind g.node_z (Node.fit f)) ∧
      (∀ last, (group.filter (fun r =>
          decide (f ∈ graphFittings r.ConnectedFittingNames))).getLast? =
            some last →
        dfind (group.foldl (addRow tol) g).node_z (Node.fit f) =
          some (rowFitZ tol last)) := by
  intro group
  induction group with
  | nil => exact fun g => ⟨fun _ => rfl, fun last h => by simp at h⟩
  | cons r t ih =>
    intro g
    by_cases hr : f ∈ graphFittings r.ConnectedFittingNames
    · constructor
      · intro h
        rw [List.filter_cons_of_pos (by simpa using hr)] at h
        cases h
      · intro last h
        rw [List.filter_cons_of_pos (by simpa using hr)] at h
        rcases hft : t.filter (fun r =>
            decide (f ∈ graphFittings r.ConnectedFittingNames)) with _ | ⟨x, xs⟩
        · rw [hft] at h
          simp at h
          subst h
          rw [List.foldl_cons, (ih (addRow tol g r)).1 hft]
          exact (addRow_node_z_fit tol g r f).1 hr
        · rw [hft, List.getLast?_cons_cons] at h
          rw [List.foldl_cons]
          exact (ih (addRow tol g r)).2 last (by rw [hft]; exact h)
    · have hstep : ∀ g₁ : RunGraph,
          dfind (addRow tol g₁ r).node_z (Node.fit f) =
            dfind g₁.node_z (Node.fit f) :=
        fun g₁ => (addRow_node_z_fit tol g₁ r f).2 hr
      constructor
      · intro h
        rw [List.filter_cons_of_neg (by simpa using hr)] at h
        rw [List.foldl_cons, (ih (addRow tol g r)).1 h, hstep]
      · intro last h
        rw [List.filter_cons_of_neg (by simpa using hr)] at h
        rw [List.foldl_cons]
        exact (ih (addRow tol g r)).2 last h

/-- Claim C5 fails: a fitting shared by two segments records only the last
segment's endpoint average (here `10`), not the average of all its
directly connected endpoints (here `5`). -/
theorem C5_counterexample :
    zOf (buildGraph (1 / 1000)
        [⟨0, 0, 0, 1, 0, 0, "CS40", 50, some "F[1]"⟩,
         ⟨0, 0, 10, 1, 0, 10, "CS40", 50, some "F[1]"⟩]) (Node.fit "F[1]") = 10 ∧
    specFittingAvg (buildGraph (1 / 1000)
        [⟨0, 0, 0, 1, 0, 0, "CS40", 50, some "F[1]"⟩,
         ⟨0, 0, 10, 1, 0, 10, "CS40", 50, some "F[1]"⟩]) "F[1]" = 5 ∧
    (10 : ℚ) ≠ 5 :=
  ⟨by decide, by decide, by norm_num⟩

/-- Claim C5, amended: the recorded elevation of a fitting node is the
snapped-endpoint average of the **last** row (in input order) that
references the fitting — each later reference overwrites the earlier
ones. -/
theorem C5_fitting_last_row_average (tol : ℚ) (group : List Row)
    (f : String) (last : Row)
    (h : (group.filter (fun r =>
        decide (f ∈ graphFittings r.ConnectedFittingNames))).getLast? =
      some last) :
    zOf (buildGraph tol group) (Node.fit f) = rowFitZ tol last := by
  have hz := (foldl_addRow_node_z_fit tol f group ⟨[], []⟩).2 last h
  rw [zOf, dget, buildGraph, hz]
  rfl

/-- The amended C5 at the counterexample input: the second row is the last
to reference `F[1]`, and its endpoint average is what is stored. -/
theorem C5_fitting_last_row_average_witness :
    zOf (buildGraph (1 / 1000)
        [⟨0, 0, 0, 1, 0, 0, "CS40", 50, some "F[1]"⟩,
         ⟨0, 0, 10, 1, 0, 10, "CS40", 50, some "F[1]"⟩]) (Node.fit "F[1]") =
      rowFitZ (1 / 1000) ⟨0, 0, 10, 1, 0, 10, "CS40", 50, some "F[1]"⟩ :=
  C5_fitting_last_row_average (1 / 1000) _ "F[1]" _ (by decide)

/-- Unfolding `bind` on a successful `Except`. -/
theorem except_bind_ok {ε α β : Type} (a : α) (f : α → Except ε β) :
    (Except.ok a >>= f) = f a := rfl

/-- Unfolding `bind` on a failed `Except`. -/
theorem except_bind_error {ε α β : Type} (e : ε) (f : α → Except ε β) :
    ((Except.error e : Except ε α) >>= f) = Except.error e := rfl

/-- A subtraction that succeeds had no string operand. -/
theorem psub_ok_not_str {a b v : PVal} (h : psub a b = Except.ok v) :
    a.isStr = false ∧ b.isStr = false := by
  cases a <;> cases b <;> simp_all [psub, PVal.isStr]

/-- A row whose length computation succeeds has no malformed coordinate. -/
theorem calculate_length_dyn_ok_not_malformed {r : DynRow} {v : RVal}
    (h : calculate_length_dyn r = Except.ok v) : malformedRow r = false := by
  rw [calculate_length_dyn] at h
  rcases h₁ : psub r.EndX_m r.StartX_m with e | dx
  · rw [h₁, except_bind_error] at h
    cases h
  rw [h₁, except_bind_ok] at h
  rcases h₂ : pmul dx dx with e | sx
  · rw [h₂, except_bind_error] at h
    cases h
  rw [h₂, except_bind_ok] at h
  rcases h₃ : psub r.EndY_m r.StartY_m with e | dy
  · rw [h₃, except_bind_error] at h
    cases h
  rw [h₃, except_bind_ok] at h
  rcases h₄ : pmul dy dy with e | sy
  · rw [h₄, except_bind_error] at h
    cases h
  rw [h₄, except_bind_ok] at h
  rcases h₅ : psub r.EndZ_m r.StartZ_m with e | dz
  · rw [h₅, except_bind_error] at h
    cases h
  rw [h₅, except_bind_ok] at h
  obtain ⟨hx₂, hx₁⟩ := psub_ok_not_str h₁
  obtain ⟨hy₂, hy₁⟩ := psub_ok_not_str h₃
  obtain ⟨hz₂, hz₁⟩ := psub_ok_not_str h₅
  simp [malformedRow, hx₁, hx₂, hy₁, hy₂, hz₁, hz₂]

/-- A successful `apply` means every row's length computation succeeded. -/
theorem applyCalculatedLength_ok_forall {rows : List DynRow} {l : List RVal}
    (h : applyCalculatedLength rows = Except.ok l) :
    ∀ r ∈ rows, ∃ v, calculate_length_dyn r = Except.ok v := by
  induction rows generalizing l with
  | nil => exact fun r hr => absurd hr (List.not_mem_nil r)
  | cons r t ih =>
    intro x hx
    rw [applyCalculatedLength, List.mapM_cons] at h
    rcases h₁ : calculate_length_dyn r with e | v₁
    · rw [h₁, except_bind_error] at h
      cases h
    rw [h₁, except_bind_ok] at h
    rcases h₂ : t.mapM calculate_length_dyn with e | vs
    · rw [h₂, except_bind_error] at h
      cases h
    rcases List.mem_cons.mp hx with rfl | hx₁
    · exact ⟨v₁, h₁⟩
    · exact ih (l := vs) h₂ x hx₁

/-- Claim C9 fails at a concrete input: one malformed coordinate (the
string "abc" in `EndX_m` of the second row) aborts the whole length pass
with an uncaught `TypeError` — no aggregates, no error tally. -/
theorem C9_counterexample :
    applyCalculatedLength
      [⟨PVal.num 0, PVal.num 0, PVal.num 0, PVal.num 1, PVal.num 0, PVal.num 0⟩,
       ⟨PVal.num 0, PVal.num 0, PVal.num 0, PVal.str "abc", PVal.num 0,
         PVal.num 0⟩] =
      Except.error "TypeError: unsupported operand type(s) for -" := rfl

/-- Claim C9, amended: a segment record with a malformed numeric field is
not excluded and counted — the arithmetic of the length pass raises a
`TypeError` that nothing catches, so the exception propagates past
row-level processing and the engine aborts without aggregates; no error
counter exists. -/
theorem C9_malformed_field_raises (rows : List DynRow)
    (h : ∃ r ∈ rows, malformedRow r = true) :
    ∃ e, applyCalculatedLength rows = Except.error e := by
  obtain ⟨r, hr, hm⟩ := h
  rcases hres : applyCalculatedLength rows with e | l
  · exact ⟨e, rfl⟩
  · obtain ⟨v, hv⟩ := applyCalculatedLength_ok_forall hres r hr
    rw [calculate_length_dyn_ok_not_malformed hv] at hm
    cases hm

/-- The amended C9 at the counterexample input. -/
theorem C9_malformed_field_raises_witness :
    ∃ e, applyCalculatedLength
      [⟨PVal.num 0, PVal.num 0, PVal.num 0, PVal.num 1, PVal.num 0, PVal.num 0⟩,
       ⟨PVal.num 0, PVal.num 0, PVal.num 0, PVal.str "abc", PVal.num 0,
         PVal.num 0⟩] = Except.error e :=
  C9_malformed_field_raises _
    ⟨⟨PVal.num 0, PVal.num 0, PVal.num 0, PVal.str "abc", PVal.num 0,
      PVal.num 0⟩, by decide, rfl⟩

/-- A dict read after a write at the same key. -/
theorem dget_dset_self {κ β : Type} [DecidableEq κ] (m : List (κ × β))
    (k : κ) (v d : β) : dget (dset m k v) k d = v := by
  rw [dget, dfind_dset_self]
  rfl

/-- A dict read after a write at another key. -/
theorem dget_dset_ne {κ β : Type} [DecidableEq κ] (m : List (κ × β))
    {k k₁ : κ} (v d : β) (h : k₁ ≠ k) :
    dget (dset m k v) k₁ d = dget m k₁ d := by
  rw [dget, dfind_dset_ne m v h]
  rfl

/-- Membership after a set-insert. -/
theorem mem_sadd {α : Type} [DecidableEq α] (s : List α) (a w : α) :
    w ∈ sadd s a ↔ w ∈ s ∨ w = a := by
  by_cases h : a ∈ s
  · simp only [sadd, if_pos h]
    constructor
    · exact Or.inl
    · rintro (hw | rfl)
      · exact hw
      · exact h
  · simp [sadd, if_neg h]

/-- Membership in an adjacency list after one set-insert
`adj[a].add(b)`. -/
theorem mem_adjAdd (m : List (Node × List Node)) (a b u w : Node) :
    w ∈ dget (adjAdd m a b) u [] ↔
      w ∈ dget m u [] ∨ (u = a ∧ w = b) := by
  by_cases h : u = a
  · subst h
    rw [adjAdd, dget_dset_self, mem_sadd]
    constructor
    · rintro (hw | rfl)
      · exact Or.inl hw
      · exact Or.inr ⟨rfl, rfl⟩
    · rintro (hw | ⟨-, rfl⟩)
      · exact Or.inl hw
      · exact Or.inr rfl
  · rw [adjAdd, dget_dset_ne _ _ _ h]
    simp [h]

/-- A key the dict answers for is among its keys. -/
theorem dfind_some_mem_keys {κ β : Type} [DecidableEq κ]
    {m : List (κ × β)} {k : κ} {v : β} (h : dfind m k = some v) :
    k ∈ m.map (fun kv => kv.1) := by
  induction m with
  | nil => cases h
  | cons kv t ih =>
    obtain ⟨k₁, v₁⟩ := kv
    by_cases hk : k = k₁
    · subst hk
      exact List.mem_cons_self _ _
    · simp only [dfind, if_neg hk] at h
      exact List.mem_cons_of_mem _ (ih h)

/-- A node with a non-empty adjacency list is a key of the dict. -/
theorem mem_nodesOf_of_adjOf_ne_nil {g : RunGraph} {v : Node}
    (h : adjOf g v ≠ []) : v ∈ nodesOf g := by
  rcases hf : dfind g.adj v with _ | l
  · rw [adjOf, dget, hf] at h
    cases h rfl
  · exact dfind_some_mem_keys hf

/-- A value answered by the dict sits inside the concatenation of all its
value lists. -/
theorem dfind_mem_values {m : List (Node × List Node)} {u : Node}
    {l : List Node} (hf : dfind m u = some l) {w : Node} (h : w ∈ l) :
    w ∈ m.foldr (fun kv acc => kv.2 ++ acc) [] := by
  induction m with
  | nil => cases hf
  | cons kv t ih =>
    obtain ⟨k₁, l₁⟩ := kv
    rw [List.foldr_cons, List.mem_append]
    by_cases hk : u = k₁
    · simp only [dfind, if_pos hk, Option.some.injEq] at hf
      subst hf
      exact Or.inl h
    · simp only [dfind, if_neg hk] at hf
      exact Or.inr (ih hf)

/-- Every recorded neighbour appears among the adjacency targets. -/
theorem adjOf_subset_adjTargets {g : RunGraph} {u w : Node}
    (h : w ∈ adjOf g u) : w ∈ adjTargets g := by
  rw [adjOf, dget] at h
  rcases hf : dfind g.adj u with _ | l
  · rw [hf] at h
    cases h
  · rw [hf] at h
    exact dfind_mem_values hf h

/-- One symmetric pair of inserts (`adj[a].add(b); adj[b].add(a)`)
preserves the symmetry of the adjacency dict. -/
theorem adjAdd_pair_sym {m : List (Node × List Node)}
    (hm : ∀ u v, v ∈ dget m u [] → u ∈ dget m v []) (a b : Node) :
    ∀ u v, v ∈ dget (adjAdd (adjAdd m a b) b a) u [] →
      u ∈ dget (adjAdd (adjAdd m a b) b a) v [] := by
  intro u v h
  rw [mem_adjAdd, mem_adjAdd] at h
  rw [mem_adjAdd, mem_adjAdd]
  rcases h with (h | ⟨rfl, rfl⟩) | ⟨rfl, rfl⟩
  · exact Or.inl (Or.inl (hm u v h))
  · exact Or.inr ⟨rfl, rfl⟩
  · exact Or.inl (Or.inr ⟨rfl, rfl⟩)

/-- One fitting step preserves adjacency symmetry. -/
theorem addFit_sym {h : RunGraph}
    (hm : ∀ u v, v ∈ adjOf h u → u ∈ adjOf h v) (p₁ p₂ : Node) (z : ℚ)
    (f : String) :
    ∀ u v, v ∈ adjOf (addFit p₁ p₂ z h f) u →
      u ∈ adjOf (addFit p₁ p₂ z h f) v := by
  intro u v
  show v ∈ dget (adjAdd (adjAdd (adjAdd (adjAdd h.adj p₁ (Node.fit f))
    (Node.fit f) p₁) p₂ (Node.fit f)) (Node.fit f) p₂) u [] → _
  exact adjAdd_pair_sym (adjAdd_pair_sym hm p₁ (Node.fit f)) p₂ (Node.fit f) u v

/-- The fitting fold preserves adjacency symmetry. -/
theorem foldl_addFit_sym (p₁ p₂ : Node) (z : ℚ) :
    ∀ (l : List String) (h : RunGraph),
      (∀ u v, v ∈ adjOf h u → u ∈ adjOf h v) →
      ∀ u v, v ∈ adjOf (l.foldl (addFit p₁ p₂ z) h) u →
        u ∈ adjOf (l.foldl (addFit p₁ p₂ z) h) v := by
  intro l
  induction l with
  | nil => exact fun h hm => hm
  | cons f t ih =>
    intro h hm
    exact ih _ (addFit_sym hm p₁ p₂ z f)

/-- Processing a row preserves adjacency symmetry. -/
theorem addRow_sym {g : RunGraph}
    (hm : ∀ u v, v ∈ adjOf g u → u ∈ adjOf g v) (tol : ℚ) (r : Row) :
    ∀ u v, v ∈ adjOf (addRow tol g r) u → u ∈ adjOf (addRow tol g r) v := by
  unfold addRow
  apply foldl_addFit_sym
  intro u v
  exact adjAdd_pair_sym hm _ _ u v

/-- The adjacency dict of a built run graph is symmetric: every edge was
inserted in both directions. -/
theorem buildGraph_sym (tol : ℚ) (group : List Row) :
    ∀ u v, v ∈ adjOf (buildGraph tol group) u →
      u ∈ adjOf (buildGraph tol group) v := by
  rw [buildGraph]
  generalize hG : (⟨[], []⟩ : RunGraph) = G
  have hm : ∀ u v, v ∈ adjOf G u → u ∈ adjOf G v := by
    subst hG
    intro u v h
    rw [adjOf] at h
    cases h
  clear hG
  induction group generalizing G with
  | nil => exact hm
  | cons r t ih => exact ih _ (addRow_sym hm tol r)

/-- Degree-1 endpoints are nodes of the graph. -/
theorem endpointsOf_subset_nodesOf {g : RunGraph} {v : Node}
    (h : v ∈ endpointsOf g) : v ∈ nodesOf g := by
  rw [endpointsOf] at h
  obtain ⟨kv, hkv, rfl⟩ := List.mem_map.mp h
  exact List.mem_map_of_mem _ (List.mem_of_mem_filter hkv)

/-- A dict read after a write, in one equation. -/
theorem dfind_dset {κ β : Type} [DecidableEq κ] (m : List (κ × β))
    (k k₁ : κ) (v : β) :
    dfind (dset m k v) k₁ = if k₁ = k then some v else dfind m k₁ := by
  by_cases h : k₁ = k
  · subst h
    rw [if_pos rfl, dfind_dset_self]
  · rw [if_neg h, dfind_dset_ne m v h]

/-- Visiting an already-seen neighbour changes nothing. -/
theorem bfsVisit_of_some {du : ℕ} {st : BfsState} {v : Node} {d : ℕ}
    (h : dfind st.seen v = some d) : bfsVisit du st v = st := by
  rw [bfsVisit, h]

/-- Visiting an unseen neighbour records it, queues it, and updates the
farthest node. -/
theorem bfsVisit_of_none {du : ℕ} {st : BfsState} {v : Node}
    (h : dfind st.seen v = none) :
    bfsVisit du st v =
      ⟨dset st.seen v (du + 1), st.q ++ [v],
        if dget (dset st.seen v (du + 1)) st.far 0 < du + 1 then v
          else st.far⟩ := by
  rw [bfsVisit, h]

/-- Flipping one element of a nodup list out of a filter lowers the count
by exactly one. -/
theorem filter_length_flip {α : Type} :
    ∀ (l : List α), l.Nodup → ∀ (v : α), v ∈ l → ∀ (p q : α → Bool),
      p v = true → q v = false → (∀ w ∈ l, w ≠ v → q w = p w) →
      (l.filter q).length + 1 = (l.filter p).length := by
  intro l
  induction l with
  | nil => intro _ v hv; cases hv
  | cons x t ih =>
    intro hnd v hv p q hpv hqv hagree
    obtain ⟨hxt, hndt⟩ := List.nodup_cons.mp hnd
    rcases List.mem_cons.mp hv with rfl | hvt
    · have ht : t.filter q = t.filter p := by
        apply List.filter_congr
        intro w hw
        exact hagree w (List.mem_cons_of_mem _ hw) (fun he => hxt (he ▸ hw))
      simp [List.filter_cons, hpv, hqv, ht]
    · have hxv : x ≠ v := fun he => hxt (he ▸ hvt)
      have hx : q x = p x := hagree x (List.mem_cons_self _ _) hxv
      rw [List.filter_cons, List.filter_cons, hx]
      have hrec := ih hndt v hvt p q hpv hqv
        (fun w hw hne => hagree w (List.mem_cons_of_mem _ hw) hne)
      by_cases hpx : p x = true
      · rw [if_pos hpx, if_pos hpx, List.length_cons, List.length_cons]
        omega
      · rw [if_neg hpx, if_neg hpx]
        exact hrec

/-- Visiting a neighbour never raises the BFS measure. -/
theorem bfsMeasure_visit {g : RunGraph} {u : Node} {du : ℕ} {st : BfsState}
    {v : Node} (hv : v ∈ adjOf g u) :
    bfsMeasure g (bfsVisit du st v) ≤ bfsMeasure g st := by
  rcases hd : dfind st.seen v with _ | d
  · rw [bfsVisit_of_none hd]
    have hflip :
        (((adjTargets g).dedup).filter
            (fun w => (dfind (dset st.seen v (du + 1)) w).isNone)).length + 1 =
          (((adjTargets g).dedup).filter
            (fun w => (dfind st.seen w).isNone)).length := by
      apply filter_length_flip _ (List.nodup_dedup _) v
        (List.mem_dedup.mpr (adjOf_subset_adjTargets hv))
      · rw [hd]
        rfl
      · rw [dfind_dset_self]
        rfl
      · intro w _ hne
        rw [dfind_dset_ne _ _ hne]
    show (st.q ++ [v]).length +
        (((adjTargets g).dedup).filter
          (fun w => (dfind (dset st.seen v (du + 1)) w).isNone)).length ≤
      st.q.length +
        (((adjTargets g).dedup).filter
          (fun w => (dfind st.seen w).isNone)).length
    rw [List.length_append, List.length_singleton]
    omega
  · rw [bfsVisit_of_some hd]

/-- Triangle inequality for the graph distance, assuming reachability. -/
theorem dist_triangle_reach {V : Type} {G : SimpleGraph V} {a b c : V}
    (hab : G.Reachable a b) (hbc : G.Reachable b c) :
    G.dist a c ≤ G.dist a b + G.dist b c := by
  obtain ⟨p, hp⟩ := hab.exists_walk_length_eq_dist
  obtain ⟨q, hq⟩ := hbc.exists_walk_length_eq_dist
  calc G.dist a c ≤ (p.append q).length := SimpleGraph.dist_le _
    _ = p.length + q.length := SimpleGraph.Walk.length_append p q
    _ = G.dist a b + G.dist b c := by rw [hp, hq]

/-- One inner-loop visit preserves the mid-processing invariant. -/
theorem bfsVisit_midinv {g : RunGraph} {s u : Node} {du : ℕ}
    (Hsym : ∀ x y, y ∈ adjOf g x → x ∈ adjOf g y)
    {st : BfsState} {v : Node} {ns : List Node}
    (hv : v ∈ adjOf g u)
    (hinv : BfsMidInv g s u du st (v :: ns)) :
    BfsMidInv g s u du (bfsVisit du st v) ns := by
  obtain ⟨i_start, i_zero, i_dist, i_qseen, i_qsort, i_qge, i_front,
    i_frontdu, i_closed, i_closeu, i_farseen, i_farmax, i_keys, i_useen,
    i_uval⟩ := hinv
  rcases hd : dfind st.seen v with _ | d
  · -- v unseen: push it
    have hMv : ¬ seenM st v := by simp [seenM, hd]
    have hsv : s ≠ v := fun he => hMv (he ▸ i_start)
    have huv : u ≠ v := fun he => hMv (he ▸ i_useen)
    have hfv : st.far ≠ v := fun he => hMv (he ▸ i_farseen)
    have hvq : v ∉ st.q := fun hvq => hMv (i_qseen v hvq)
    rw [bfsVisit_of_none hd]
    have hgf : dget (dset st.seen v (du + 1)) st.far 0 = seenD st st.far := by
      rw [dget_dset_ne _ _ _ hfv]
      rfl
    rw [hgf]
    have hM : ∀ x : Node, (dfind (dset st.seen v (du + 1)) x ≠ none) ↔
        (x = v ∨ seenM st x) := by
      intro x
      rw [dfind_dset]
      by_cases hx : x = v
      · simp [hx]
      · simp [hx, seenM]
    have hD : ∀ x : Node, x ≠ v →
        dget (dset st.seen v (du + 1)) x 0 = seenD st x := by
      intro x hx
      rw [dget_dset_ne _ _ _ hx]
      rfl
    have hDv : dget (dset st.seen v (du + 1)) v 0 = du + 1 := by
      rw [dget_dset_self]
    have hreach : (tsG g).Reachable s v ∧ (tsG g).dist s v ≤ du + 1 := by
      have hu := i_dist u i_useen
      have hadj : (tsG g).Adj u v := ⟨huv, Or.inl hv⟩
      refine ⟨hu.1.trans hadj.reachable, ?_⟩
      have h₁ : (tsG g).dist u v ≤ 1 := by
        simpa using SimpleGraph.dist_le
          (SimpleGraph.Walk.cons hadj SimpleGraph.Walk.nil)
      have h₂ : (tsG g).dist s u ≤ du := i_uval ▸ hu.2
      have h₃ := dist_triangle_reach hu.1 hadj.reachable
      omega
    have f_dist : ∀ x, (x = v ∨ seenM st x) → (tsG g).Reachable s x ∧
        (tsG g).dist s x ≤ dget (dset st.seen v (du + 1)) x 0 := by
      rintro x (rfl | hx)
      · rw [hDv]
        exact hreach
      · have hxv : x ≠ v := fun he => hMv (he ▸ hx)
        rw [hD x hxv]
        exact i_dist x hx
    have f_qseen : ∀ w ∈ st.q ++ [v], w = v ∨ seenM st w := by
      intro w hw
      rcases List.mem_append.mp hw with hw | hw
      · exact Or.inr (i_qseen w hw)
      · exact Or.inl (List.mem_singleton.mp hw)
    have f_qsort : (st.q ++ [v]).Pairwise (fun a b =>
        dget (dset st.seen v (du + 1)) a 0 ≤
          dget (dset st.seen v (du + 1)) b 0) := by
      rw [List.pairwise_append]
      refine ⟨?_, List.pairwise_singleton _ v, ?_⟩
      · refine i_qsort.imp_of_mem ?_
        intro a b ha hb hab
        rw [hD a (fun he => hvq (he ▸ ha)), hD b (fun he => hvq (he ▸ hb))]
        exact hab
      · intro a ha b hb
        rw [List.mem_singleton.mp hb, hDv,
          hD a (fun he => hvq (he ▸ ha))]
        exact i_frontdu a (i_qseen a ha)
    have f_qge : ∀ w ∈ st.q ++ [v], du ≤ dget (dset st.seen v (du + 1)) w 0 := by
      intro w hw
      rcases List.mem_append.mp hw with hw | hw
      · rw [hD w (fun he => hvq (he ▸ hw))]
        exact i_qge w hw
      · rw [List.mem_singleton.mp hw, hDv]
        omega
    have f_front : ∀ x, (x = v ∨ seenM st x) → ∀ w ∈ st.q ++ [v],
        dget (dset st.seen v (du + 1)) x 0 ≤
          dget (dset st.seen v (du + 1)) w 0 + 1 := by
      rintro x hx w hw
      rcases List.mem_append.mp hw with hw₁ | hw₁
      · rw [hD w (fun he => hvq (he ▸ hw₁))]
        rcases hx with rfl | hx
        · rw [hDv]
          have := i_qge w hw₁
          omega
        · rw [hD x (fun he => hMv (he ▸ hx))]
          exact i_front x hx w hw₁
      · rw [List.mem_singleton.mp hw₁, hDv]
        rcases hx with rfl | hx
        · rw [hDv]
          omega
        · rw [hD x (fun he => hMv (he ▸ hx))]
          have := i_frontdu x hx
          omega
    have f_frontdu : ∀ x, (x = v ∨ seenM st x) →
        dget (dset st.seen v (du + 1)) x 0 ≤ du + 1 := by
      rintro x (rfl | hx)
      · rw [hDv]
      · rw [hD x (fun he => hMv (he ▸ hx))]
        exact i_frontdu x hx
    have f_closed : ∀ x, (x = v ∨ seenM st x) → x ∉ st.q ++ [v] → x ≠ u →
        ∀ w ∈ adjOf g x, (w = v ∨ seenM st w) ∧
          dget (dset st.seen v (du + 1)) w 0 ≤
            dget (dset st.seen v (du + 1)) x 0 + 1 := by
      intro x hx hxq hxu w hw
      have hxv : x ≠ v := fun he =>
        hxq (he ▸ List.mem_append.mpr (Or.inr (List.mem_singleton.mpr rfl)))
      have hxMem : seenM st x := hx.resolve_left hxv
      have hxq₀ : x ∉ st.q := fun hc =>
        hxq (List.mem_append.mpr (Or.inl hc))
      obtain ⟨hMw, hDw⟩ := i_closed x hxMem hxq₀ hxu w hw
      have hwv : w ≠ v := fun he => hMv (he ▸ hMw)
      rw [hD w hwv, hD x hxv]
      exact ⟨Or.inr hMw, hDw⟩
    have f_closeu : ∀ w ∈ adjOf g u, w ∈ ns ∨ ((w = v ∨ seenM st w) ∧
        dget (dset st.seen v (du + 1)) w 0 ≤ du + 1) := by
      intro w hw
      rcases i_closeu w hw with hw₁ | hw₂
      · rcases List.mem_cons.mp hw₁ with rfl | hw₃
        · refine Or.inr ⟨Or.inl rfl, ?_⟩
          rw [hDv]
        · exact Or.inl hw₃
      · refine Or.inr ⟨Or.inr hw₂.1, ?_⟩
        rw [hD w (fun he => hMv (he ▸ hw₂.1))]
        exact hw₂.2
    have f_keys : ∀ x, (x = v ∨ seenM st x) → x = s ∨ x ∈ nodesOf g := by
      rintro x (rfl | hx)
      · exact Or.inr (mem_nodesOf_of_adjOf_ne_nil
          (List.ne_nil_of_mem (Hsym u x hv)))
      · exact i_keys x hx
    have f_uval : dget (dset st.seen v (du + 1)) u 0 = du := by
      rw [hD u huv]
      exact i_uval
    by_cases hlt : seenD st st.far < du + 1
    · rw [if_pos hlt]
      refine ⟨(hM s).mpr (Or.inr i_start), ?_, ?_, ?_, ?_, ?_, ?_, ?_, ?_,
        ?_, ?_, ?_, ?_, ?_, ?_⟩
      · show dget (dset st.seen v (du + 1)) s 0 = 0
        rw [hD s hsv]
        exact i_zero
      · intro x hx
        exact f_dist x ((hM x).mp hx)
      · intro w hw
        exact (hM w).mpr (f_qseen w hw)
      · exact f_qsort
      · exact f_qge
      · intro x hx w hw
        exact f_front x ((hM x).mp hx) w hw
      · intro x hx
        exact f_frontdu x ((hM x).mp hx)
      · intro x hx hxq hxu w hw
        obtain ⟨h₁, h₂⟩ := f_closed x ((hM x).mp hx) hxq hxu w hw
        exact ⟨(hM w).mpr h₁, h₂⟩
      · intro w hw
        rcases f_closeu w hw with h | ⟨h₁, h₂⟩
        · exact Or.inl h
        · exact Or.inr ⟨(hM w).mpr h₁, h₂⟩
      · exact (hM v).mpr (Or.inl rfl)
      · intro x hx
        show dget (dset st.seen v (du + 1)) x 0 ≤
          dget (dset st.seen v (du + 1)) v 0
        rw [hDv]
        rcases (hM x).mp hx with rfl | hx₁
        · rw [hDv]
        · rw [hD x (fun he => hMv (he ▸ hx₁))]
          have := i_farmax x hx₁
          omega
      · intro x hx
        exact f_keys x ((hM x).mp hx)
      · exact (hM u).mpr (Or.inr i_useen)
      · exact f_uval
    · rw [if_neg hlt]
      refine ⟨(hM s).mpr (Or.inr i_start), ?_, ?_, ?_, ?_, ?_, ?_, ?_, ?_,
        ?_, ?_, ?_, ?_, ?_, ?_⟩
      · show dget (dset st.seen v (du + 1)) s 0 = 0
        rw [hD s hsv]
        exact i_zero
      · intro x hx
        exact f_dist x ((hM x).mp hx)
      · intro w hw
        exact (hM w).mpr (f_qseen w hw)
      · exact f_qsort
      · exact f_qge
      · intro x hx w hw
        exact f_front x ((hM x).mp hx) w hw
      · intro x hx
        exact f_frontdu x ((hM x).mp hx)
      · intro x hx hxq hxu w hw
        obtain ⟨h₁, h₂⟩ := f_closed x ((hM x).mp hx) hxq hxu w hw
        exact ⟨(hM w).mpr h₁, h₂⟩
      · intro w hw
        rcases f_closeu w hw with h | ⟨h₁, h₂⟩
        · exact Or.inl h
        · exact Or.inr ⟨(hM w).mpr h₁, h₂⟩
      · exact (hM st.far).mpr (Or.inr i_farseen)
      · intro x hx
        show dget (dset st.seen v (du + 1)) x 0 ≤
          dget (dset st.seen v (du + 1)) st.far 0
        rw [hD st.far hfv]
        rcases (hM x).mp hx with rfl | hx₁
        · rw [hDv]
          omega
        · rw [hD x (fun he => hMv (he ▸ hx₁))]
          exact i_farmax x hx₁
      · intro x hx
        exact f_keys x ((hM x).mp hx)
      · exact (hM u).mpr (Or.inr i_useen)
      · exact f_uval
  · -- v already seen: nothing changes but the remaining neighbour list
    have hMv : seenM st v := by simp [seenM, hd]
    rw [bfsVisit_of_some hd]
    refine ⟨i_start, i_zero, i_dist, i_qseen, i_qsort, i_qge, i_front,
      i_frontdu, i_closed, ?_, i_farseen, i_farmax, i_keys, i_useen, i_uval⟩
    intro w hw
    rcases i_closeu w hw with hw₁ | hw₂
    · rcases List.mem_cons.mp hw₁ with rfl | hw₃
      · exact Or.inr ⟨hMv, i_frontdu w hMv⟩
      · exact Or.inl hw₃
    · exact Or.inr hw₂

/-- The whole inner loop preserves the mid-processing invariant and never
raises the measure. -/
theorem bfsVisit_foldl_midinv {g : RunGraph} {s u : Node} {du : ℕ}
    (Hsym : ∀ x y, y ∈ adjOf g x → x ∈ adjOf g y) :
    ∀ (ns : List Node) (st : BfsState), (∀ w ∈ ns, w ∈ adjOf g u) →
      BfsMidInv g s u du st ns →
      BfsMidInv g s u du (ns.foldl (bfsVisit du) st) [] ∧
      bfsMeasure g (ns.foldl (bfsVisit du) st) ≤ bfsMeasure g st := by
  intro ns
  induction ns with
  | nil => exact fun st _ h => ⟨h, le_refl _⟩
  | cons v t ih =>
    intro st hsub hinv
    rw [List.foldl_cons]
    have hvadj : v ∈ adjOf g u := hsub v (List.mem_cons_self v t)
    have h₁ := bfsVisit_midinv Hsym hvadj hinv
    obtain ⟨h₂, h₃⟩ := ih (bfsVisit du st v)
      (fun w hw => hsub w (List.mem_cons_of_mem v hw)) h₁
    exact ⟨h₂, le_trans h₃ (bfsMeasure_visit hvadj)⟩

/-- Popping the head of the queue establishes the mid-processing
invariant. -/
theorem pop_midinv {g : RunGraph} {s : Node} {seen : List (Node × ℕ)}
    {far u : Node} {rest : List Node}
    (hinv : BfsInv g s ⟨seen, u :: rest, far⟩) :
    BfsMidInv g s u (dget seen u 0) ⟨seen, rest, far⟩ (adjOf g u) := by
  obtain ⟨i_start, i_zero, i_dist, i_qseen, i_qsort, i_front, i_closed,
    i_farseen, i_farmax, i_keys⟩ := hinv
  have huq : u ∈ (⟨seen, u :: rest, far⟩ : BfsState).q := List.mem_cons_self u rest
  refine ⟨i_start, i_zero, i_dist, ?_, ?_, ?_, ?_, ?_, ?_, ?_, i_farseen,
    i_farmax, i_keys, i_qseen u huq, rfl⟩
  · exact fun w hw => i_qseen w (List.mem_cons_of_mem u hw)
  · exact (List.pairwise_cons.mp i_qsort).2
  · exact (List.pairwise_cons.mp i_qsort).1
  · exact fun v hv w hw => i_front v hv w (List.mem_cons_of_mem u hw)
  · exact fun v hv => i_front v hv u huq
  · intro v hv hvq hvu w hw
    refine i_closed v hv ?_ w hw
    intro hc
    rcases List.mem_cons.mp hc with rfl | hc₁
    · exact hvu rfl
    · exact hvq hc₁
  · exact fun w hw => Or.inl hw

/-- A finished inner loop restores the main invariant. -/
theorem midinv_done_inv {g : RunGraph} {s u : Node} {du : ℕ} {st : BfsState}
    (h : BfsMidInv g s u du st []) : BfsInv g s st := by
  obtain ⟨i_start, i_zero, i_dist, i_qseen, i_qsort, i_qge, i_front,
    i_frontdu, i_closed, i_closeu, i_farseen, i_farmax, i_keys, i_useen,
    i_uval⟩ := h
  refine ⟨i_start, i_zero, i_dist, i_qseen, i_qsort, i_front, ?_, i_farseen,
    i_farmax, i_keys⟩
  intro v hv hvq w hw
  by_cases hvu : v = u
  · subst hvu
    rcases i_closeu w hw with hc | hc
    · cases hc
    · rw [i_uval]
      exact hc
  · exact i_closed v hv hvq hvu w hw

/-- The BFS loop drains the queue and preserves the invariant, given
enough fuel. -/
theorem bfsLoop_inv {g : RunGraph} {s : Node}
    (Hsym : ∀ x y, y ∈ adjOf g x → x ∈ adjOf g y) :
    ∀ (fuel : ℕ) (st : BfsState), BfsInv g s st →
      bfsMeasure g st ≤ fuel →
      (bfsLoop g fuel st).q = [] ∧ BfsInv g s (bfsLoop g fuel st) := by
  intro fuel
  induction fuel with
  | zero =>
    intro st hinv hμ
    have hq : st.q = [] := by
      rw [bfsMeasure] at hμ
      exact List.length_eq_zero.mp (by omega)
    exact ⟨hq, hinv⟩
  | succ n ih =>
    intro st hinv hμ
    obtain ⟨seen, q, far⟩ := st
    rcases q with _ | ⟨u, rest⟩
    · exact ⟨rfl, hinv⟩
    · have hmid := pop_midinv hinv
      obtain ⟨hfold, hμf⟩ := bfsVisit_foldl_midinv Hsym (adjOf g u)
        ⟨seen, rest, far⟩ (fun w hw => hw) hmid
      have hinv₂ := midinv_done_inv hfold
      have hμstep : bfsMeasure g (⟨seen, u :: rest, far⟩ : BfsState) =
          bfsMeasure g (⟨seen, rest, far⟩ : BfsState) + 1 := by
        simp only [bfsMeasure, List.length_cons]
        omega
      have hμ₂ : bfsMeasure g
          ((adjOf g u).foldl (bfsVisit (dget seen u 0)) ⟨seen, rest, far⟩)
            ≤ n := by
        omega
      exact ih _ hinv₂ hμ₂

/-- The invariant at the start of a BFS from `s`. -/
theorem bfsInv_init (g : RunGraph) (s : Node) :
    BfsInv g s ⟨[(s, 0)], [s], s⟩ := by
  have hfind : ∀ x : Node, dfind [(s, 0)] x = if x = s then some 0 else none := by
    intro x
    simp [dfind]
  have hMs : ∀ x : Node, seenM ⟨[(s, 0)], [s], s⟩ x → x = s := by
    intro x hx
    rw [seenM, hfind] at hx
    by_cases h : x = s
    · exact h
    · rw [if_neg h] at hx
      cases hx rfl
  have hDs : seenD (⟨[(s, 0)], [s], s⟩ : BfsState) s = 0 := by
    rw [seenD, dget, hfind, if_pos rfl]
    rfl
  refine ⟨?_, hDs, ?_, ?_, ?_, ?_, ?_, ?_, ?_, ?_⟩
  · rw [seenM, hfind, if_pos rfl]
    simp
  · intro v hv
    rw [hMs v hv, hDs]
    exact ⟨SimpleGraph.Reachable.refl s, by rw [SimpleGraph.dist_self]⟩
  · intro w hw
    rw [List.mem_singleton.mp hw, seenM, hfind, if_pos rfl]
    simp
  · exact List.pairwise_singleton _ s
  · intro v hv w hw
    rw [hMs v hv, hDs]
    omega
  · intro v hv hvq
    rw [hMs v hv] at hvq
    cases hvq (List.mem_singleton.mpr rfl)
  · rw [seenM, hfind, if_pos rfl]
    simp
  · intro v hv
    rw [hMs v hv]
  · intro v hv
    exact Or.inl (hMs v hv)

/-- After the queue drains, recorded hop counts are bounded along every
walk of the graph. -/
theorem seen_le_walk {g : RunGraph} {s : Node}
    (Hsym : ∀ x y, y ∈ adjOf g x → x ∈ adjOf g y) {F : BfsState}
    (hq : F.q = []) (hinv : BfsInv g s F) :
    ∀ (x y : Node) (w : (tsG g).Walk x y), seenM F x →
      seenM F y ∧ seenD F y ≤ seenD F x + w.length := by
  intro x y w
  induction w with
  | nil =>
    intro h
    exact ⟨h, by omega⟩
  | cons hadj p ih =>
    intro hx
    rename_i a b c
    have hdir : b ∈ adjOf g a := by
      rcases hadj.2 with h | h
      · exact h
      · exact Hsym b a h
    obtain ⟨hm, hdm⟩ := hinv.closed a hx
      (by rw [hq]; exact List.not_mem_nil a) b hdir
    obtain ⟨hy, hdy⟩ := ih hm
    refine ⟨hy, ?_⟩
    rw [SimpleGraph.Walk.length_cons]
    omega

/-- `farthest_pair` from `s` returns a node of the graph reachable from
`s` whose hop distance from `s` is maximal among all reachable nodes. -/
theorem farthest_pair_spec (g : RunGraph) (s : Node)
    (Hsym : ∀ x y, y ∈ adjOf g x → x ∈ adjOf g y) :
    (tsG g).Reachable s (farthest_pair g s).1 ∧
    ((farthest_pair g s).1 = s ∨ (farthest_pair g s).1 ∈ nodesOf g) ∧
    ∀ v, (tsG g).Reachable s v →
      (tsG g).dist s v ≤ (tsG g).dist s (farthest_pair g s).1 := by
  have hlen : (adjTargets g).length =
      g.adj.foldr (fun kv n => kv.2.length + n) 0 := by
    rw [adjTargets]
    induction g.adj with
    | nil => rfl
    | cons kv t ih =>
      rw [List.foldr_cons, List.foldr_cons, List.length_append, ih]
  have hμ : bfsMeasure g ⟨[(s, 0)], [s], s⟩ ≤ bfsFuel g := by
    have h₁ : (((adjTargets g).dedup).filter
        (fun w => (dfind (⟨[(s, 0)], [s], s⟩ : BfsState).seen w).isNone)).length
          ≤ (adjTargets g).length :=
      le_trans (List.length_filter_le _ _)
        (List.Sublist.length_le (List.dedup_sublist _))
    show [s].length + _ ≤ _
    rw [bfsFuel, List.length_singleton, ← hlen]
    omega
  obtain ⟨hq, hinv⟩ := bfsLoop_inv Hsym (bfsFuel g) _ (bfsInv_init g s) hμ
  rw [show (farthest_pair g s).1 =
    (bfsLoop g (bfsFuel g) ⟨[(s, 0)], [s], s⟩).far from rfl]
  revert hq hinv
  generalize bfsLoop g (bfsFuel g) ⟨[(s, 0)], [s], s⟩ = F
  intro hq hinv
  have hexact : ∀ v, (tsG g).Reachable s v →
      seenM F v ∧ seenD F v = (tsG g).dist s v := by
    intro v hr
    obtain ⟨p, hp⟩ := hr.exists_walk_length_eq_dist
    have hs := seen_le_walk Hsym hq hinv s v p hinv.start_mem
    refine ⟨hs.1, ?_⟩
    have h₁ := (hinv.dist_le v hs.1).2
    have h₂ := hs.2
    rw [hinv.start_zero, hp] at h₂
    omega
  refine ⟨(hinv.dist_le F.far hinv.far_seen).1,
    hinv.keys F.far hinv.far_seen, ?_⟩
  intro v hv
  obtain ⟨hMv, hDv⟩ := hexact v hv
  obtain ⟨hMf, hDf⟩ := hexact F.far (hinv.dist_le F.far hinv.far_seen).1
  have h₃ := hinv.far_max v hMv
  omega

/-- In an acyclic graph every path realises the distance between its
endpoints: it coincides with the bypass of any shortest walk. -/
theorem path_length_eq_dist {V : Type} [DecidableEq V] {G : SimpleGraph V}
    (hG : G.IsAcyclic) {x y : V} (p : G.Walk x y) (hp : p.IsPath) :
    p.length = G.dist x y := by
  have hr : G.Reachable x y := ⟨p⟩
  obtain ⟨w, hw⟩ := hr.exists_walk_length_eq_dist
  have hb : w.bypass.IsPath := SimpleGraph.Walk.bypass_isPath w
  have hble : w.bypass.length ≤ w.length := SimpleGraph.Walk.length_bypass_le w
  have hunique := SimpleGraph.isAcyclic_iff_path_unique.mp hG
    (⟨p, hp⟩ : G.Path x y) ⟨w.bypass, hb⟩
  have heq : p = w.bypass := congrArg Subtype.val hunique
  have h₁ : G.dist x y ≤ p.length := SimpleGraph.dist_le p
  have h₂ : p.length ≤ G.dist x y := by
    rw [heq, ← hw]
    exact hble
  omega

/-- The first vertex of a walk satisfying a predicate that holds at the
walk's end: the walk splits there, and no earlier vertex satisfies it. -/
theorem walk_first_hit {V : Type} {G : SimpleGraph V} {x y : V}
    (p : G.Walk x y) (S : V → Prop) [DecidablePred S] :
    S y → ∃ (m : V) (w₁ : G.Walk x m) (w₂ : G.Walk m y),
      p = w₁.append w₂ ∧ S m ∧ ∀ z ∈ w₁.support, S z → z = m := by
  induction p with
  | nil =>
    intro hy
    rename_i u
    refine ⟨u, SimpleGraph.Walk.nil, SimpleGraph.Walk.nil, rfl, hy, ?_⟩
    intro z hz _
    simpa using hz
  | cons h q ih =>
    intro hy
    rename_i a b c
    by_cases hS : S a
    · refine ⟨a, SimpleGraph.Walk.nil, SimpleGraph.Walk.cons h q, rfl, hS, ?_⟩
      intro z hz _
      simpa using hz
    · obtain ⟨m, w₁, w₂, heq, hm, hfirst⟩ := ih hy
      refine ⟨m, SimpleGraph.Walk.cons h w₁, w₂, ?_, hm, ?_⟩
      · rw [SimpleGraph.Walk.cons_append, heq]
      · intro z hz hSz
        rw [SimpleGraph.Walk.support_cons] at hz
        rcases List.mem_cons.mp hz with rfl | hz₁
        · exact absurd hSz hS
        · exact hfirst z hz₁ hSz

/-- Splitting the distance at any vertex of a path, in an acyclic
graph. -/
theorem dist_split_on_path {V : Type} [DecidableEq V] {G : SimpleGraph V}
    (hG : G.IsAcyclic) {x y : V} {P : G.Walk x y} (hP : P.IsPath) {m : V}
    (hm : m ∈ P.support) : G.dist x y = G.dist x m + G.dist m y := by
  have h₁ := path_length_eq_dist hG (P.takeUntil m hm) (hP.takeUntil hm)
  have h₂ := path_length_eq_dist hG (P.dropUntil m hm) (hP.dropUntil hm)
  have h₃ := path_length_eq_dist hG P hP
  have h₄ : (P.takeUntil m hm).length + (P.dropUntil m hm).length =
      P.length := by
    rw [← SimpleGraph.Walk.length_append, SimpleGraph.Walk.take_spec]
  omega

/-- Of two vertices on one walk, one lies on the walk's prefix up to the
other. -/
theorem mem_takeUntil_or {V : Type} [DecidableEq V] {G : SimpleGraph V} :
    ∀ {x y : V} (P : G.Walk x y) (m₁ m₂ : V) (h₁ : m₁ ∈ P.support)
      (h₂ : m₂ ∈ P.support),
      m₁ ∈ (P.takeUntil m₂ h₂).support ∨ m₂ ∈ (P.takeUntil m₁ h₁).support := by
  intro x y P
  induction P with
  | nil =>
    intro m₁ m₂ h₁ h₂
    rename_i u
    left
    have hm₁ : m₁ = u := by simpa using h₁
    subst hm₁
    exact SimpleGraph.Walk.start_mem_support _
  | cons h q ih =>
    intro m₁ m₂ h₁ h₂
    rename_i a b c
    by_cases e₂ : a = m₂
    · right
      subst e₂
      exact SimpleGraph.Walk.start_mem_support _
    · by_cases e₁ : a = m₁
      · left
        subst e₁
        exact SimpleGraph.Walk.start_mem_support _
      · have h₁q : m₁ ∈ q.support := by
          rw [SimpleGraph.Walk.support_cons] at h₁
          rcases List.mem_cons.mp h₁ with rfl | hq₁
          · exact absurd rfl e₁
          · exact hq₁
        have h₂q : m₂ ∈ q.support := by
          rw [SimpleGraph.Walk.support_cons] at h₂
          rcases List.mem_cons.mp h₂ with rfl | hq₂
          · exact absurd rfl e₂
          · exact hq₂
        rcases ih m₁ m₂ h₁q h₂q with hc | hc
        · left
          simp only [SimpleGraph.Walk.takeUntil, dif_neg e₂,
            SimpleGraph.Walk.support_cons]
          exact List.mem_cons_of_mem a hc
        · right
          simp only [SimpleGraph.Walk.takeUntil, dif_neg e₁,
            SimpleGraph.Walk.support_cons]
          exact List.mem_cons_of_mem a hc

/-- Two vertices on one path of an acyclic graph are separated by the
difference of their positions: one of the two order relations holds. -/
theorem dist_between_on_path {V : Type} [DecidableEq V] {G : SimpleGraph V}
    (hG : G.IsAcyclic) {x y : V} {P : G.Walk x y} (hP : P.IsPath) {m₁ m₂ : V}
    (h₁ : m₁ ∈ P.support) (h₂ : m₂ ∈ P.support) :
    G.dist x m₂ = G.dist x m₁ + G.dist m₁ m₂ ∨
      G.dist x m₁ = G.dist x m₂ + G.dist m₂ m₁ := by
  rcases mem_takeUntil_or P m₁ m₂ h₁ h₂ with hc | hc
  · left
    have hQ : (P.takeUntil m₂ h₂).IsPath := hP.takeUntil h₂
    have e₁ := path_length_eq_dist hG _ (hQ.takeUntil hc)
    have e₂ := path_length_eq_dist hG _ (hQ.dropUntil hc)
    have e₃ := path_length_eq_dist hG _ hQ
    have hsplit : ((P.takeUntil m₂ h₂).takeUntil m₁ hc).length +
        ((P.takeUntil m₂ h₂).dropUntil m₁ hc).length =
          (P.takeUntil m₂ h₂).length := by
      rw [← SimpleGraph.Walk.length_append, SimpleGraph.Walk.take_spec]
    omega
  · right
    have hQ : (P.takeUntil m₁ h₁).IsPath := hP.takeUntil h₁
    have e₁ := path_length_eq_dist hG _ (hQ.takeUntil hc)
    have e₂ := path_length_eq_dist hG _ (hQ.dropUntil hc)
    have e₃ := path_length_eq_dist hG _ hQ
    have hsplit : ((P.takeUntil m₁ h₁).takeUntil m₂ hc).length +
        ((P.takeUntil m₁ h₁).dropUntil m₂ hc).length =
          (P.takeUntil m₁ h₁).length := by
      rw [← SimpleGraph.Walk.length_append, SimpleGraph.Walk.take_spec]
    omega

/-- A vertex of a walk's support is reachable from the walk's start. -/
theorem reachable_of_mem_support {V : Type} [DecidableEq V]
    {G : SimpleGraph V} {x y : V} {P : G.Walk x y} {m : V}
    (hm : m ∈ P.support) : G.Reachable x m := ⟨P.takeUntil m hm⟩

/-- The left part of a path decomposition is a path. -/
theorem isPath_append_left {V : Type} {G : SimpleGraph V} {a b c : V}
    {p : G.Walk a b} {q : G.Walk b c} (h : (p.append q).IsPath) :
    p.IsPath := by
  rw [SimpleGraph.Walk.isPath_def] at h ⊢
  rw [SimpleGraph.Walk.support_append] at h
  exact (List.nodup_append.mp h).1

/-- The right part of a path decomposition is a path. -/
theorem isPath_append_right {V : Type} {G : SimpleGraph V} {a b c : V}
    {p : G.Walk a b} {q : G.Walk b c} (h : (p.append q).IsPath) :
    q.IsPath := by
  rw [SimpleGraph.Walk.isPath_def] at h ⊢
  rw [SimpleGraph.Walk.support_append] at h
  obtain ⟨h₁, h₂, h₃⟩ := List.nodup_append.mp h
  rw [SimpleGraph.Walk.support_eq_cons]
  exact List.nodup_cons.mpr ⟨fun hb => h₃ p.end_mem_support hb, h₂⟩

/-- The median decomposition: for any vertex `w` reachable from the start
of a path `P``, some vertex `m` of `P` splits both distances from `w` to
the two ends of `P`. -/
theorem median_on_path {V : Type} [DecidableEq V] {G : SimpleGraph V}
    (hG : G.IsAcyclic) {x y w : V} (P : G.Walk x y) (hP : P.IsPath)
    (hwx : G.Reachable w x) :
    ∃ m, m ∈ P.support ∧ G.dist w x = G.dist w m + G.dist m x ∧
      G.dist w y = G.dist w m + G.dist m y := by
  obtain ⟨W₀, -⟩ := hwx.exists_walk_length_eq_dist
  have hWp : W₀.bypass.IsPath := W₀.bypass_isPath
  obtain ⟨m, w₁, w₂, heq, hm, hfirst⟩ := walk_first_hit W₀.bypass
    (fun z => z ∈ P.support) P.start_mem_support
  have hw₁ : w₁.IsPath := isPath_append_left (heq ▸ hWp)
  have hw₂ : w₂.IsPath := isPath_append_right (heq ▸ hWp)
  have hP₂ : (P.dropUntil m hm).IsPath := hP.dropUntil hm
  refine ⟨m, hm, ?_, ?_⟩
  · -- dist w x through the walk w → m → x
    have e₀ := path_length_eq_dist hG _ hWp
    have e₁ := path_length_eq_dist hG w₁ hw₁
    have e₂ := path_length_eq_dist hG w₂ hw₂
    have hlen : w₁.length + w₂.length = W₀.bypass.length := by
      rw [heq, SimpleGraph.Walk.length_append]
    omega
  · -- dist w y through the path w → m followed by the tail of P
    have hjoin : (w₁.append (P.dropUntil m hm)).IsPath := by
      rw [SimpleGraph.Walk.isPath_def, SimpleGraph.Walk.support_append]
      refine List.nodup_append.mpr ⟨hw₁.support_nodup, ?_, ?_⟩
      · rw [SimpleGraph.Walk.isPath_def, SimpleGraph.Walk.support_eq_cons]
          at hP₂
        exact (List.nodup_cons.mp hP₂).2
      · intro z hz₁ hz₂
        have hzP₂ : z ∈ (P.dropUntil m hm).support := by
          rw [SimpleGraph.Walk.support_eq_cons]
          exact List.mem_cons_of_mem m hz₂
        have hzP : z ∈ P.support :=
          SimpleGraph.Walk.support_dropUntil_subset P hm hzP₂
        have hzm : z = m := hfirst z hz₁ hzP
        subst hzm
        rw [SimpleGraph.Walk.isPath_def, SimpleGraph.Walk.support_eq_cons]
          at hP₂
        exact (List.nodup_cons.mp hP₂).1 hz₂
    have e₁ := path_length_eq_dist hG w₁ hw₁
    have e₂ := path_length_eq_dist hG _ hP₂
    have e₃ := path_length_eq_dist hG _ hjoin
    have hlen : w₁.length + (P.dropUntil m hm).length =
        (w₁.append (P.dropUntil m hm)).length :=
      (SimpleGraph.Walk.length_append _ _).symm
    omega

/-- The two-sweep key lemma: in an acyclic graph, if `a` is at least as
far from `u` as `x` and `y` are, then the distance from `x` to `y` is
bounded by the larger of the distances from `a`. -/
theorem tree_two_sweep {V : Type} [DecidableEq V] {G : SimpleGraph V}
    (hG : G.IsAcyclic) {u a x y : V} (hux : G.Reachable u x)
    (hxy : G.Reachable x y) (hua : G.Reachable u a)
    (hx : G.dist u x ≤ G.dist u a) (hy : G.dist u y ≤ G.dist u a) :
    G.dist x y ≤ max (G.dist a x) (G.dist a y) := by
  obtain ⟨P₀, -⟩ := hxy.exists_walk_length_eq_dist
  have hPp : P₀.bypass.IsPath := P₀.bypass_isPath
  obtain ⟨m₁, hm₁, e₁x, e₁y⟩ := median_on_path hG P₀.bypass hPp hux
  obtain ⟨m₂, hm₂, e₂x, e₂y⟩ := median_on_path hG P₀.bypass hPp
    (hua.symm.trans hux)
  have hsx₁ : G.dist x y = G.dist x m₁ + G.dist m₁ y :=
    dist_split_on_path hG hPp hm₁
  have hsx₂ : G.dist x y = G.dist x m₂ + G.dist m₂ y :=
    dist_split_on_path hG hPp hm₂
  have hT2 := dist_between_on_path hG hPp hm₁ hm₂
  have hrum₁ : G.Reachable u m₁ := hux.trans (reachable_of_mem_support hm₁)
  have hrm₁m₂ : G.Reachable m₁ m₂ :=
    (reachable_of_mem_support hm₁).symm.trans (reachable_of_mem_support hm₂)
  have hrm₂a : G.Reachable m₂ a :=
    ((hua.symm.trans hux).trans (reachable_of_mem_support hm₂)).symm
  have htri : G.dist u a ≤
      G.dist u m₁ + (G.dist m₁ m₂ + G.dist m₂ a) := by
    have t₁ := dist_triangle_reach hrum₁ (hrm₁m₂.trans hrm₂a)
    have t₂ := dist_triangle_reach hrm₁m₂ hrm₂a
    omega
  have c₁ : G.dist m₁ x = G.dist x m₁ := SimpleGraph.dist_comm
  have c₂ : G.dist m₂ x = G.dist x m₂ := SimpleGraph.dist_comm
  have c₃ : G.dist m₂ m₁ = G.dist m₁ m₂ := SimpleGraph.dist_comm
  have c₄ : G.dist m₂ a = G.dist a m₂ := SimpleGraph.dist_comm
  rcases hT2 with h₂ | h₂
  · refine le_max_iff.mpr (Or.inl ?_)
    omega
  · refine le_max_iff.mpr (Or.inr ?_)
    omega

/-- Membership in a fold of appended blocks. -/
theorem mem_foldr_append_iff {α β : Type} (f : α → List β) :
    ∀ (l : List α) (b : β),
      (b ∈ l.foldr (fun u acc => f u ++ acc) [] ↔ ∃ x ∈ l, b ∈ f x) := by
  intro l
  induction l with
  | nil => simp
  | cons u t ih =>
    intro b
    rw [List.foldr_cons, List.mem_append, ih b]
    constructor
    · rintro (h | ⟨x, hx, hb⟩)
      · exact ⟨u, List.mem_cons_self u t, h⟩
      · exact ⟨x, List.mem_cons_of_mem u hx, hb⟩
    · rintro ⟨x, hx, hb⟩
      rcases List.mem_cons.mp hx with rfl | hx₁
      · exact Or.inl hb
      · exact Or.inr ⟨x, hx₁, hb⟩

/-- The distance between two nodes is one of the pair distances. -/
theorem mem_pairDists {g : RunGraph} {x y : Node} (hx : x ∈ nodesOf g)
    (hy : y ∈ nodesOf g) : (tsG g).dist x y ∈ pairDists g := by
  rw [pairDists, mem_foldr_append_iff]
  exact ⟨x, hx, List.mem_map_of_mem _ hy⟩

/-- A fold of `max` is bounded by any common bound. -/
theorem foldr_max_le {L : List ℕ} {n : ℕ} (h : ∀ x ∈ L, x ≤ n) :
    L.foldr max 0 ≤ n := by
  induction L with
  | nil => exact Nat.zero_le n
  | cons x t ih =>
    rw [List.foldr_cons]
    exact max_le (h x (List.mem_cons_self x t))
      (ih fun y hy => h y (List.mem_cons_of_mem x hy))

/-- The multi-segment branch of the resolver returns the ordered pair of
the two sweep results' elevations. -/
theorem find_run_sweep_pair (tol : ℚ) (group : List Row)
    (h₂ : 2 ≤ group.length) (hadj : (buildGraph tol group).adj ≠ [])
    (e₀ e₁ : Node) (rest : List Node)
    (hend : endpointsOf (buildGraph tol group) = e₀ :: e₁ :: rest) :
    find_run_end_elevations tol group =
      (min (zOf (buildGraph tol group) (sweepA (buildGraph tol group)))
          (zOf (buildGraph tol group) (sweepB (buildGraph tol group))),
        max (zOf (buildGraph tol group) (sweepA (buildGraph tol group)))
          (zOf (buildGraph tol group) (sweepB (buildGraph tol group)))) := by
  have hA : sweepA (buildGraph tol group) =
      (farthest_pair (buildGraph tol group) e₀).1 := by
    rw [sweepA, hend]
    simp
  have hB : sweepB (buildGraph tol group) =
      (farthest_pair (buildGraph tol group)
        (sweepA (buildGraph tol group))).1 := rfl
  rcases group with _ | ⟨r₁, _ | ⟨r₂, rest'⟩⟩
  · simp at h₂
  · simp at h₂
  · simp only [find_run_end_elevations]
    rw [if_neg hadj, hend]
    show (if zOf (buildGraph tol (r₁ :: r₂ :: rest'))
          ((farthest_pair (buildGraph tol (r₁ :: r₂ :: rest')) e₀).1) ≤
        zOf (buildGraph tol (r₁ :: r₂ :: rest'))
          ((farthest_pair (buildGraph tol (r₁ :: r₂ :: rest'))
            ((farthest_pair (buildGraph tol (r₁ :: r₂ :: rest')) e₀).1)).1)
      then (zOf (buildGraph tol (r₁ :: r₂ :: rest'))
          ((farthest_pair (buildGraph tol (r₁ :: r₂ :: rest')) e₀).1),
        zOf (buildGraph tol (r₁ :: r₂ :: rest'))
          ((farthest_pair (buildGraph tol (r₁ :: r₂ :: rest'))
            ((farthest_pair (buildGraph tol (r₁ :: r₂ :: rest')) e₀).1)).1))
      else (zOf (buildGraph tol (r₁ :: r₂ :: rest'))
          ((farthest_pair (buildGraph tol (r₁ :: r₂ :: rest'))
            ((farthest_pair (buildGraph tol (r₁ :: r₂ :: rest')) e₀).1)).1),
        zOf (buildGraph tol (r₁ :: r₂ :: rest'))
          ((farthest_pair (buildGraph tol (r₁ :: r₂ :: rest')) e₀).1))) = _
    rw [← hA, ← hB]
    by_cases hle : zOf (buildGraph tol (r₁ :: r₂ :: rest'))
        (sweepA (buildGraph tol (r₁ :: r₂ :: rest'))) ≤
      zOf (buildGraph tol (r₁ :: r₂ :: rest'))
        (sweepB (buildGraph tol (r₁ :: r₂ :: rest')))
    · rw [if_pos hle, min_eq_left hle, max_eq_right hle]
    · rw [if_neg hle, min_eq_right (le_of_not_le hle),
        max_eq_left (le_of_not_le hle)]

/-- Claim C1: on a multi-segment run whose topology graph is a tree
(mutually reachable nodes, no cycles) with at least two degree-1
endpoints, the double breadth-first search of the resolver returns two
nodes whose hop distance is exactly the graph diameter, and the resolver
returns exactly those two nodes' elevations, in ascending order. -/
theorem C1_double_bfs_diameter (tol : ℚ) (group : List Row)
    (h₂ : 2 ≤ group.length)
    (hconn : ∀ u ∈ nodesOf (buildGraph tol group),
      ∀ v ∈ nodesOf (buildGraph tol group),
        (tsG (buildGraph tol group)).Reachable u v)
    (hacyc : (tsG (buildGraph tol group)).IsAcyclic)
    (e₀ e₁ : Node) (rest : List Node)
    (hend : endpointsOf (buildGraph tol group) = e₀ :: e₁ :: rest) :
    (tsG (buildGraph tol group)).dist (sweepA (buildGraph tol group))
        (sweepB (buildGraph tol group)) = graphDiam (buildGraph tol group) ∧
    find_run_end_elevations tol group =
      (min (zOf (buildGraph tol group) (sweepA (buildGraph tol group)))
          (zOf (buildGraph tol group) (sweepB (buildGraph tol group))),
        max (zOf (buildGraph tol group) (sweepA (buildGraph tol group)))
          (zOf (buildGraph tol group) (sweepB (buildGraph tol group)))) := by
  have Hsym := buildGraph_sym tol group
  have he₀ : e₀ ∈ nodesOf (buildGraph tol group) :=
    endpointsOf_subset_nodesOf (by rw [hend]; exact List.mem_cons_self _ _)
  have hA : sweepA (buildGraph tol group) =
      (farthest_pair (buildGraph tol group) e₀).1 := by
    rw [sweepA, hend]
    simp
  obtain ⟨hra, hkeys_a, hmax_a⟩ :=
    farthest_pair_spec (buildGraph tol group) e₀ Hsym
  rw [← hA] at hra hkeys_a hmax_a
  have ha_nodes : sweepA (buildGraph tol group) ∈ nodesOf (buildGraph tol group) := by
    rcases hkeys_a with h | h
    · rw [h]
      exact he₀
    · exact h
  obtain ⟨hrb, hkeys_b, hmax_b⟩ :=
    farthest_pair_spec (buildGraph tol group) (sweepA (buildGraph tol group)) Hsym
  have hb_nodes : sweepB (buildGraph tol group) ∈ nodesOf (buildGraph tol group) := by
    rcases hkeys_b with h | h
    · rw [show sweepB (buildGraph tol group) =
        (farthest_pair (buildGraph tol group)
          (sweepA (buildGraph tol group))).1 from rfl, h]
      exact ha_nodes
    · exact h
  have hadj : (buildGraph tol group).adj ≠ [] := by
    rcases group with _ | ⟨r₁, rest'⟩
    · simp at h₂
    · rw [buildGraph, List.foldl_cons]
      exact foldl_addRow_adj_ne_nil tol rest' _ (addRow_adj_ne_nil tol _ r₁)
  refine ⟨?_, find_run_sweep_pair tol group h₂ hadj e₀ e₁ rest hend⟩
  have hbound : ∀ x ∈ nodesOf (buildGraph tol group),
      ∀ y ∈ nodesOf (buildGraph tol group),
        (tsG (buildGraph tol group)).dist x y ≤
          (tsG (buildGraph tol group)).dist (sweepA (buildGraph tol group))
            (sweepB (buildGraph tol group)) := by
    intro x hx y hy
    have hts := tree_two_sweep hacyc (hconn e₀ he₀ x hx) (hconn x hx y hy)
      hra (hmax_a x (hconn e₀ he₀ x hx)) (hmax_a y (hconn e₀ he₀ y hy))
    have h₁ := hmax_b x (hconn (sweepA (buildGraph tol group)) ha_nodes x hx)
    have h₂' := hmax_b y (hconn (sweepA (buildGraph tol group)) ha_nodes y hy)
    exact le_trans hts (max_le h₁ h₂')
  apply le_antisymm
  · exact le_foldr_max_of_mem (mem_pairDists ha_nodes hb_nodes)
  · apply foldr_max_le
    intro d hd
    rw [pairDists, mem_foldr_append_iff] at hd
    obtain ⟨x, hx, hd₁⟩ := hd
    obtain ⟨y, hy, rfl⟩ := List.mem_map.mp hd₁
    exact hbound x hx y hy

/-- A duplicate-free list whose elements are all equal has at most one
element. -/
theorem nodup_all_eq_length_le {α : Type} {l : List α} {a : α}
    (hn : l.Nodup) (h : ∀ x ∈ l, x = a) : l.length ≤ 1 := by
  match l, hn, h with
  | [], _, _ => exact Nat.zero_le 1
  | [x], _, _ => exact le_refl 1
  | x :: y :: t, hn, h =>
    exfalso
    rw [List.nodup_cons] at hn
    apply hn.1
    rw [h x (List.mem_cons_self _ _),
      h y (List.mem_cons_of_mem _ (List.mem_cons_self _ _))]
    exact List.mem_cons_self _ _

/-- A concrete two-row run: both rows are the vertical segment from
(0,0,0) to (0,0,1), no fittings. -/
def rowW : Row := ⟨0, 0, 0, 0, 0, 1, "CS40", 50, none⟩

/-- The adjacency dict of the concrete two-row run: two point nodes, each
the other's only neighbour. -/
theorem gW_adjW : (buildGraph 1 [rowW, rowW]).adj =
    [(Node.pt (0, 0, 0), [Node.pt (0, 0, 1)]),
      (Node.pt (0, 0, 1), [Node.pt (0, 0, 0)])] := by decide

/-- Every adjacency of the concrete run's graph is one of the pair. -/
theorem adjW_cases (u v : Node) (hv : v ∈ adjOf (buildGraph 1 [rowW, rowW]) u) :
    (u = Node.pt (0, 0, 0) ∧ v = Node.pt (0, 0, 1)) ∨
      (u = Node.pt (0, 0, 1) ∧ v = Node.pt (0, 0, 0)) := by
  rw [adjOf, dget, gW_adjW] at hv
  by_cases h1 : u = Node.pt (0, 0, 0)
  · simp only [dfind, if_pos h1, Option.getD_some, List.mem_singleton] at hv
    exact Or.inl ⟨h1, hv⟩
  · simp only [dfind, if_neg h1] at hv
    by_cases h2 : u = Node.pt (0, 0, 1)
    · simp only [if_pos h2, Option.getD_some, List.mem_singleton] at hv
      exact Or.inr ⟨h2, hv⟩
    · simp only [if_neg h2, Option.getD_none, List.not_mem_nil] at hv

/-- The concrete run's graph has a single edge. -/
theorem hedgeW : ∀ e ∈ (tsG (buildGraph 1 [rowW, rowW])).edgeSet,
    e = s(Node.pt (0, 0, 0), Node.pt (0, 0, 1)) := by
  intro e he
  induction e using Sym2.ind with
  | _ u v =>
    rw [SimpleGraph.mem_edgeSet] at he
    obtain ⟨hne, h | h⟩ := he
    · rcases adjW_cases u v h with ⟨rfl, rfl⟩ | ⟨rfl, rfl⟩
      · rfl
      · exact Sym2.eq_swap
    · rcases adjW_cases v u h with ⟨rfl, rfl⟩ | ⟨rfl, rfl⟩
      · exact Sym2.eq_swap
      · rfl

/-- The concrete run's graph is acyclic: a cycle has at least three
distinct edges, but only one edge exists. -/
theorem hacycW : (tsG (buildGraph 1 [rowW, rowW])).IsAcyclic := by
  intro v c hc
  have h3 := hc.three_le_length
  have hnodup := hc.edges_nodup
  have hlen : c.edges.length = c.length := SimpleGraph.Walk.length_edges c
  have hle : c.edges.length ≤ 1 :=
    nodup_all_eq_length_le hnodup
      (fun e he => hedgeW e (SimpleGraph.Walk.edges_subset_edgeSet c he))
  omega

/-- The concrete run's graph is connected on its nodes. -/
theorem hconnW : ∀ u ∈ nodesOf (buildGraph 1 [rowW, rowW]),
    ∀ v ∈ nodesOf (buildGraph 1 [rowW, rowW]),
      (tsG (buildGraph 1 [rowW, rowW])).Reachable u v := by
  have hn : nodesOf (buildGraph 1 [rowW, rowW]) =
      [Node.pt (0, 0, 0), Node.pt (0, 0, 1)] := by decide
  rw [hn]
  intro u hu v hv
  have hAB : (tsG (buildGraph 1 [rowW, rowW])).Adj (Node.pt (0, 0, 0))
      (Node.pt (0, 0, 1)) := by decide
  rcases List.mem_cons.mp hu with rfl | hu₁ <;>
    rcases List.mem_cons.mp hv with rfl | hv₁
  · exact SimpleGraph.Reachable.refl _
  · rw [List.mem_singleton] at hv₁
    subst hv₁
    exact hAB.reachable
  · rw [List.mem_singleton] at hu₁
    subst hu₁
    exact hAB.symm.reachable
  · rw [List.mem_singleton] at hu₁ hv₁
    subst hu₁
    subst hv₁
    exact SimpleGraph.Reachable.refl _

/-- Witness for C1 on the concrete two-row run: all hypotheses hold
there, so the double sweep realises the diameter and the resolver returns
the ordered sweep elevations. -/
theorem C1_double_bfs_diameter_witness :
    (tsG (buildGraph 1 [rowW, rowW])).dist (sweepA (buildGraph 1 [rowW, rowW]))
        (sweepB (buildGraph 1 [rowW, rowW])) =
      graphDiam (buildGraph 1 [rowW, rowW]) ∧
    find_run_end_elevations 1 [rowW, rowW] =
      (min (zOf (buildGraph 1 [rowW, rowW]) (sweepA (buildGraph 1 [rowW, rowW])))
          (zOf (buildGraph 1 [rowW, rowW]) (sweepB (buildGraph 1 [rowW, rowW]))),
        max (zOf (buildGraph 1 [rowW, rowW]) (sweepA (buildGraph 1 [rowW, rowW])))
          (zOf (buildGraph 1 [rowW, rowW]) (sweepB (buildGraph 1 [rowW, rowW])))) :=
  C1_double_bfs_diameter 1 [rowW, rowW] (by decide) hconnW hacycW
    (Node.pt (0, 0, 0)) (Node.pt (0, 0, 1)) [] (by decide)

end Aggregate
